import Mathlib

/-
Shallow embedding of src/dsc/dsc_database.py (class ResultDB): record
ingestion (load_parameters, including key deduplication and dependency
resolution via search_dependent_index), dependency chain resolution
(__get_sequence), shape grouping and pivoting (write_master_table) and
output enrichment (cbind_output), together with proofs of the specified
properties.  Python dicts are modelled as insertion-ordered association
lists, list mutation as list append, and each raised Python exception as a
constructor of an error type delivered through Except.
-/

namespace DscDB

/-- Outcomes of the build that the Python source can raise.  The source
defines a single exception class ResultDBError carrying a message; the other
constructors model built-in Python exceptions reachable in the code
(IndexError from a bad str.format replacement field or a list index out of
range, TypeError from a list + None concatenation, ValueError from
list.index on a missing element, KeyError from a missing dict key). -/
inductive DBError where
  | resultDBError (msg : String)
  | indexError
  | typeError
  | valueError
  | keyError
deriving DecidableEq

/-- One raw per-step metadata mapping: a value of the data OrderedDict in
load_parameters.  The bookkeeping keys sequence_id, sequence_name, step_name
and exec are filtered out of every attribute computation by the source, so
exec, step_name and sequence_name are fields here and attrs lists the
remaining keys in dict order (sequence_id is never read and is omitted). -/
structure RawRec (α : Type) where
  exec : String
  step_name : String
  sequence_name : String
  attrs : List (String × α)
deriving DecidableEq

/-- One per-table record store self.data[table]: the three builtin columns
step_id, return (named ret here, return being a keyword) and depends, plus
the attribute columns in dict insertion order. -/
structure Table (α : Type) where
  step_id : List Nat
  ret : List String
  depends : List (Option Nat)
  attrs : List (String × List α)
deriving DecidableEq

/-- The state of a ResultDB built by load_parameters: self.data, self.groups
and self.last_block.  Python dicts preserve insertion order, hence the
association lists. -/
structure Store (α : Type) where
  data : List (String × Table α)
  groups : List (String × List String)
  last_block : List String
deriving DecidableEq

/-- Python dict lookup on an insertion-ordered association list. -/
def dget [DecidableEq κ] : List (κ × β) → κ → Option β
  | [], _ => none
  | (k, v) :: d, k0 => if k = k0 then some v else dget d k0

/-- Python dict assignment d[k0] = v0: replace the value in place if the key
is present, otherwise append the binding at the end. -/
def dset [DecidableEq κ] : List (κ × β) → κ → β → List (κ × β)
  | [], k0, v0 => [(k0, v0)]
  | (k, v) :: d, k0, v0 => if k = k0 then (k, v0) :: d else (k, v) :: dset d k0 v0

/-- Python d.pop(k0): the removed value (if any) and the remaining dict. -/
def dpop [DecidableEq κ] : List (κ × β) → κ → Option β × List (κ × β)
  | [], _ => (none, [])
  | (k, v) :: d, k0 =>
    if k = k0 then (some v, d)
    else ((dpop d k0).1, (k, v) :: (dpop d k0).2)

/-- dict.update folded over a key/value sequence (building the data
OrderedDict from the globbed source files). -/
def odUpdate [DecidableEq κ] (d s : List (κ × β)) : List (κ × β) :=
  s.foldl (fun acc p => dset acc p.1 p.2) d

/-- Equality of Except values is decidable when both components are. -/
instance [DecidableEq ε] [DecidableEq β] : DecidableEq (Except ε β)
  | .error a, .error b =>
    match decEq a b with
    | isTrue h => isTrue (by rw [h])
    | isFalse h => isFalse (fun hh => by cases hh; exact h rfl)
  | .error _, .ok _ => isFalse (fun hh => by cases hh)
  | .ok _, .error _ => isFalse (fun hh => by cases hh)
  | .ok a, .ok b =>
    match decEq a b with
    | isTrue h => isTrue (by rw [h])
    | isFalse h => isFalse (fun hh => by cases hh; exact h rfl)

/-- Python str.split for a one-character separator, on the character list of
the string (the source only ever splits on underscore and plus). -/
def pySplitCh (sep : Char) : List Char → List (List Char)
  | [] => [[]]
  | c :: rest =>
    match pySplitCh sep rest with
    | [] => [[]]
    | r :: rs => if c = sep then [] :: r :: rs else (c :: r) :: rs

/-- Python s.split(sep) for a one-character separator. -/
def pySplit (s : String) (sep : Char) : List String :=
  (pySplitCh sep s.data).map String.mk

/-- The second component of a composite key split on underscores, i.e. the
return identifier of the key.  The source indexes position 1 directly and
would raise IndexError on a key without an underscore; keys written by the
runner always contain one. -/
def part1 (kk : String) : Option String := (pySplit kk '_')[1]?

/-- The key suffix used for deduplication: everything after the first
underscore component, i.e. the (return, depends) part of the key. -/
def suffixKey (k : String) : String :=
  String.intercalate "_" ((pySplit k '_').drop 1)

/-- Message of the ResultDBError raised by search_dependent_index. -/
def depNotFoundMsg (x : String) : String :=
  "Cannot find dependency step for output ``" ++ x ++ "``!"

/-- Message of the ResultDBError raised by __get_sequence. -/
def stepIdNotFoundMsg (n : Nat) : String :=
  "Cannot find step_id ``" ++ toString n ++ "`` in any tables!"

/-- Message of the ResultDBError raised by __find_block. -/
def blockNotFoundMsg (s : String) : String :=
  "Cannot find ``" ++ s ++ "`` in any blocks!"

/-- Message of the ResultDBError raised by cbind_output. -/
def outputMismatchMsg (rds : String) : String :=
  "Variables in ``" ++ rds ++ "`` are not consistent with existing variables!"

/-- Python str.format with positional replacement fields: the literal pieces
interleaved with the referenced arguments.  none models the IndexError that
str.format raises when a replacement field index is out of range of the
positional argument tuple. -/
def pyFormat : List String → List Nat → List String → Option String
  | [l], [], _ => some l
  | l :: ls, f :: fs, args =>
    match args[f]? with
    | none => none
    | some a =>
      match pyFormat ls fs args with
      | none => none
      | some r => some (l ++ a ++ r)
  | _, _, _ => none

/-- The literal pieces of the schema-mismatch format string of
load_parameters, around its replacement fields. -/
def schemaMsgLits : List String :=
  ["Inconsistent keys between step ``", " (value ", ")`` and ``", " (value ",
   ")``."]

/-- The replacement-field indices of the schema-mismatch format string in
order of appearance: the source writes fields {1}, {3}, {2} and {4} while
passing only four positional arguments. -/
def schemaMsgFields : List Nat := [1, 3, 2, 4]

/-- repr of a Python list of strings (the sorted key lists are passed to the
format call already repr-ed). -/
def pyStrListRepr (l : List String) : String :=
  "[" ++ String.intercalate ", " (l.map (fun s => "\x27" ++ s ++ "\x27")) ++ "]"

/-- str of a Python list of ints. -/
def pyNatListRepr (l : List Nat) : String :=
  "[" ++ String.intercalate ", " (l.map toString) ++ "]"

/-- Zero-based position of the first key whose return component equals x. -/
def searchIdx (x : String) : List String → Option Nat
  | [] => none
  | kk :: rest =>
    if part1 kk = some x then some 0
    else (searchIdx x rest).map (· + 1)

/-- search_dependent_index from load_parameters: scan all keys of the
deduplicated data dict in order and return position + 1 of the first key
whose return component equals x; raise ResultDBError when none matches. -/
def search_dependent_index (data : List (String × RawRec α)) (x : String) :
    Except DBError Nat :=
  match searchIdx x (data.map Prod.fst) with
  | some i => .ok (i + 1)
  | none => .error (.resultDBError (depNotFoundMsg x))

/-- One pass of the dot-renaming loop: v[.x] = v.pop(x) when x is a key. -/
def renameOne (attrs : List (String × α)) (x : String) : List (String × α) :=
  match dpop attrs x with
  | (none, _) => attrs
  | (some v, rest) => dset rest ("." ++ x) v

/-- The renaming loop over step_id, return and depends. -/
def renameDots (attrs : List (String × α)) : List (String × α) :=
  ["step_id", "return", "depends"].foldl renameOne attrs

/-- The empty attribute columns created for a freshly seen table. -/
def mkColumns (attrs : List (String × α)) : List (String × List α) :=
  attrs.map (fun p => (p.1, ([] : List α)))

/-- Lexicographic comparison of character lists by code point. -/
def chListLe : List Char → List Char → Bool
  | [], _ => true
  | _ :: _, [] => false
  | a :: as, b :: bs =>
    if a.toNat < b.toNat then true
    else if b.toNat < a.toNat then false
    else chListLe as bs

/-- Python string comparison: lexicographic by code points. -/
def strLe (a b : String) : Bool := chListLe a.data b.data

/-- sorted() over a list of strings: a stable ascending sort by code points
(Python sorted is stable and compares strings by code points). -/
def sortKeys (l : List String) : List String :=
  List.insertionSort (fun a b => strLe a b) l

/-- self.data[table][k1].append(v1): append to the named column; none models
the KeyError raised when the column does not exist. -/
def appendCol (cols : List (String × List α)) (k1 : String) (v1 : α) :
    Option (List (String × List α)) :=
  match cols with
  | [] => none
  | (c, l) :: rest =>
    if c = k1 then some ((c, l ++ [v1]) :: rest)
    else (appendCol rest k1 v1).map (fun r => (c, l) :: r)

/-- The attribute-append loop at the end of each load_parameters iteration. -/
def appendAttrs (cols : List (String × List α)) :
    List (String × α) → Option (List (String × List α))
  | [] => some cols
  | (k1, v1) :: rest =>
    match appendCol cols k1 v1 with
    | none => none
    | some c => appendAttrs c rest

/-- The column appends of one load_parameters iteration: step_id gets
idx + 1, return gets the second key component, depends gets the resolved
dependency (when the key has more than two components) and every attribute
column gets its value. -/
def appendRow [DecidableEq α] (dataL : List (String × RawRec α)) (idx : Nat)
    (k : String) (vAttrs : List (String × α)) (table : String) (st : Store α) :
    Except DBError (Store α) :=
  match dget st.data table with
  | none => .error .keyError
  | some tb =>
    let parts := pySplit k '_'
    match parts[1]? with
    | none => .error .indexError
    | some retVal =>
      match (if parts.length > 2 then
               (search_dependent_index dataL (parts.getLastD "")).map some
             else .ok none) with
      | .error e => .error e
      | .ok dep =>
        match appendAttrs tb.attrs vAttrs with
        | none => .error .keyError
        | some cols =>
          let tb2 : Table α :=
            { step_id := tb.step_id ++ [idx + 1]
              ret := tb.ret ++ [retVal]
              depends := tb.depends ++ [dep]
              attrs := cols }
          .ok { st with data := dset st.data table tb2 }

/-- The body of the enumerate loop of load_parameters for one record. -/
def ingestOne [DecidableEq α] (dataL : List (String × RawRec α)) (idx : Nat)
    (k : String) (v : RawRec α) (st : Store α) : Except DBError (Store α) :=
  let table := v.exec
  let block_name := (pySplit v.step_name '_').headD ""
  let groups1 :=
    match dget st.groups block_name with
    | none => st.groups ++ [(block_name, [])]
    | some _ => st.groups
  let groups2 :=
    match dget groups1 block_name with
    | none => groups1
    | some l => if table ∈ l then groups1 else dset groups1 block_name (l ++ [table])
  let last1 :=
    if block_name ∉ st.last_block ∧
        v.step_name = (pySplit v.sequence_name '+').getLastD "" then
      st.last_block ++ [block_name]
    else st.last_block
  let vAttrs := renameDots v.attrs
  let st1 : Store α := { st with groups := groups2, last_block := last1 }
  match dget st.data table with
  | none =>
    appendRow dataL idx k vAttrs table
      { st1 with data := st1.data ++
          [(table, { step_id := [], ret := [], depends := [],
                     attrs := mkColumns vAttrs })] }
  | some tb =>
    let keys1 := sortKeys (vAttrs.map Prod.fst)
    let keys2 := sortKeys (tb.attrs.map Prod.fst)
    if keys1 = keys2 then appendRow dataL idx k vAttrs table st1
    else
      match pyFormat schemaMsgLits schemaMsgFields
          [toString (idx + 1), pyStrListRepr keys1, pyNatListRepr tb.step_id,
           pyStrListRepr keys2] with
      | some m => .error (.resultDBError m)
      | none => .error .indexError

/-- The deduplication loop of load_parameters: walk the dict entries in
order and delete every entry whose key suffix was already seen. -/
def dedup (seen : List String) :
    List (String × RawRec α) → List (String × RawRec α)
  | [] => []
  | (k, v) :: rest =>
    if suffixKey k ∈ seen then dedup seen rest
    else (k, v) :: dedup (suffixKey k :: seen) rest

/-- The enumerate loop of load_parameters. -/
def ingestLoop [DecidableEq α] (dataL : List (String × RawRec α)) :
    Nat → List (String × RawRec α) → Store α → Except DBError (Store α)
  | _, [], st => .ok st
  | idx, (k, v) :: rest, st =>
    match ingestOne dataL idx k v st with
    | .error e => .error e
    | .ok st2 => ingestLoop dataL (idx + 1) rest st2

/-- load_parameters on an in-memory raw source (the concatenated key/value
pairs read from the globbed yaml files): build the OrderedDict, deduplicate
by key suffix, then ingest every surviving record in order starting from the
empty store set up by the constructor. -/
def load_parameters [DecidableEq α] (src : List (String × RawRec α)) :
    Except DBError (Store α) :=
  let dataL := dedup [] (odUpdate [] src)
  ingestLoop dataL 0 dataL { data := [], groups := [], last_block := [] }

/-- Python list.index restricted to first position: some models the index of
the first occurrence, none the ValueError raised on a missing element. -/
def listIndex (l : List Nat) (x : Nat) : Option Nat :=
  match l with
  | [] => none
  | y :: t => if y = x then some 0 else (listIndex t x).map (· + 1)

/-- The table scan of __get_sequence: the first table whose step_id column
contains d, together with the position of d in that column. -/
def findStep (dataT : List (String × Table α)) (d : Nat) :
    Option (String × Nat) :=
  match dataT with
  | [] => none
  | (k, tb) :: rest =>
    match listIndex tb.step_id d with
    | some i => some (k, i)
    | none => findStep rest d

/-- ResultDB.__get_sequence with explicit recursion fuel: append the current
(step, step_id) pair, stop on a None depends, otherwise locate the owning
table of the depends id and recurse.  The Python source recurses without a
bound, so none models a run that needs more than the given fuel. -/
def getSequenceF (dataT : List (String × Table α)) :
    Nat → String → Nat → Nat → List (String × Nat) →
    Option (Except DBError (List (String × Nat)))
  | 0, _, _, _, _ => none
  | fuel + 1, step, stepId, stepIdx, res =>
    let res2 := res ++ [(step, stepId)]
    match dget dataT step with
    | none => some (.error .keyError)
    | some tb =>
      match tb.depends[stepIdx]? with
      | none => some (.error .indexError)
      | some none => some (.ok res2)
      | some (some dependId) =>
        match findStep dataT dependId with
        | none => some (.error (.resultDBError (stepIdNotFoundMsg dependId)))
        | some (k, i) => getSequenceF dataT fuel k dependId i res2

/-- ResultDB.__find_block: the first group whose table list contains the
given step (table) name. -/
def find_block (groups : List (String × List String)) (step : String) :
    Except DBError String :=
  match groups with
  | [] => .error (.resultDBError (blockNotFoundMsg step))
  | (k, tbls) :: rest => if step ∈ tbls then .ok k else find_block rest step

/-- A cell of a master table: either a table name or a step id. -/
inductive Cell where
  | s (v : String)
  | n (v : Nat)
deriving DecidableEq

/-- flatten_list applied to a chain of (table, step_id) pairs: one row of a
shape group. -/
def flattenChain (c : List (String × Nat)) : List Cell :=
  c.flatMap (fun p => [Cell.s p.1, Cell.n p.2])

/-- flatten_list applied to the header pairs of a shape key: the
block_name/block_id header row stored first in each shape group. -/
def headerRow (key : List String) : List Cell :=
  key.flatMap (fun b => [Cell.s (b ++ "_name"), Cell.s (b ++ "_id")])

/-- The shape of a chain: the owning block of every table along it. -/
def chainShape (groups : List (String × List String)) :
    List (String × Nat) → Except DBError (List String)
  | [] => .ok []
  | (t, _) :: rest =>
    match find_block groups t with
    | .error e => .error e
    | .ok b =>
      match chainShape groups rest with
      | .error e => .error e
      | .ok bs => .ok (b :: bs)

/-- One iteration of the grouping loop of write_master_table: compute the
shape key of the chain, create its group seeded with the header row on first
sight, then append the flattened chain as a row. -/
def addChain (groups : List (String × List String))
    (data : List (List String × List (List Cell))) (c : List (String × Nat)) :
    Except DBError (List (List String × List (List Cell))) :=
  match chainShape groups c with
  | .error e => .error e
  | .ok key =>
    match dget data key with
    | none => .ok (data ++ [(key, [headerRow key, flattenChain c])])
    | some rows => .ok (dset data key (rows ++ [flattenChain c]))

/-- The grouping loop of write_master_table over all resolved chains. -/
def groupChains (groups : List (String × List String)) :
    List (List (String × Nat)) → List (List String × List (List Cell)) →
    Except DBError (List (List String × List (List Cell)))
  | [], data => .ok data
  | c :: rest, data =>
    match addChain groups data c with
    | .error e => .error e
    | .ok d2 => groupChains groups rest d2

/-- The grouping and pivot stage of write_master_table: group the chains by
shape, pop the header of each group, and hand the per-shape tables to
pd.concat(axis=1).  The master table is that column-wise concatenation,
modelled as the ordered list of (header, rows) column blocks. -/
def write_master_groups (groups : List (String × List String))
    (chains : List (List (String × Nat))) :
    Except DBError (List (List Cell × List (List Cell))) :=
  match groupChains groups chains [] with
  | .error e => .error e
  | .ok data => .ok (data.map (fun g => (g.2.headD [], g.2.drop 1)))

/-- The rds artifact path self.name/return.rds. -/
def rdsPath (name ret : String) : String := name ++ "/" ++ ret ++ ".rds"

/-- The return value of a row of the master table:
self.data[step][return][self.data[step][step_id].index(idx)]. -/
def retOf (dataT : List (String × Table α)) (step : String) (idx : Nat) :
    Except DBError String :=
  match dget dataT step with
  | none => .error .keyError
  | some tb =>
    match listIndex tb.step_id idx with
    | none => .error .valueError
    | some pos =>
      match tb.ret[pos]? with
      | none => .error .indexError
      | some r => .ok r

/-- Expansion of one artifact entry: a one-element value becomes a single
named column, a longer value becomes indexed columns name_1, name_2, ... -/
def expandOne (k : String) (vs : List α) : List String × List α :=
  if vs.length = 1 then ([k], vs)
  else ((List.range vs.length).map (fun i => k ++ "_" ++ toString (i + 1)), vs)

/-- The sorted-key expansion loop of cbind_output.  rdata is a dict, so its
keys are distinct and iterating sorted(rdata.keys()) with a dict lookup is
iterating the key-sorted pairs. -/
def expandRdata (rdata : List (String × List α)) : List String × List α :=
  (List.insertionSort (fun a b => strLe a.1 b.1) rdata).foldr
    (fun p acc =>
      ((expandOne p.1 p.2).1 ++ acc.1, (expandOne p.1 p.2).2 ++ acc.2))
    ([], [])

/-- The row loop of cbind_output over the zipped block_name/block_id columns
of the master table: rows without an artifact file are skipped, the first
artifact fixes the column names, later artifacts must match them exactly,
and each artifact contributes one enrichment row [idx] + values. -/
def cbindData (name : String) (dataT : List (String × Table α))
    (art : String → Option (List (String × List α))) :
    List (String × Nat) → Option (List String) →
    Except DBError (Option (List String) × List (Nat × List α))
  | [], colnames => .ok (colnames, [])
  | (step, idx) :: rest, colnames =>
    match retOf dataT step idx with
    | .error e => .error e
    | .ok rv =>
      match art (rdsPath name rv) with
      | none => cbindData name dataT art rest colnames
      | some rdata =>
        let e := expandRdata rdata
        match colnames with
        | none =>
          match cbindData name dataT art rest (some e.1) with
          | .error er => .error er
          | .ok r => .ok (r.1, (idx, e.2) :: r.2)
        | some cs =>
          if cs = e.1 then
            match cbindData name dataT art rest (some cs) with
            | .error er => .error er
            | .ok r => .ok (r.1, (idx, e.2) :: r.2)
          else .error (.resultDBError (outputMismatchMsg (rdsPath name rv)))

/-- pd.merge(table, frame, on=block_id, how=outer): every master row paired
with each enrichment row of equal id (or with none when there is no match),
followed by the enrichment rows whose id matches no master row. -/
def outerJoin (table : List (String × Nat)) (d : List (Nat × List α)) :
    List (Option (String × Nat) × Option (List α)) :=
  (table.flatMap (fun r =>
    let ms := d.filter (fun m => m.1 = r.2)
    if ms.isEmpty then [(some r, none)]
    else ms.map (fun m => (some r, some m.2))))
  ++ ((d.filter (fun m => !(table.any (fun r => r.2 = m.1)))).map
      (fun m => (none, some m.2)))

/-- ResultDB.cbind_output on a master table represented by its zipped
block_name/block_id columns: collect the enrichment rows, then build the
enrichment frame with columns [block_id] + colnames and outer-join it to the
table.  When no row contributed an artifact, colnames is still None and the
source evaluates [block_id] + None, raising TypeError. -/
def cbind_output (name : String) (dataT : List (String × Table α))
    (art : String → Option (List (String × List α)))
    (table : List (String × Nat)) :
    Except DBError (List (Option (String × Nat) × Option (List α))) :=
  match cbindData name dataT art table none with
  | .error e => .error e
  | .ok (none, _) => .error .typeError
  | .ok (some _, d) => .ok (outerJoin table d)

/-! Dictionary lemmas. -/

theorem dget_eq_none_iff [DecidableEq κ] (d : List (κ × β)) (k : κ) :
    dget d k = none ↔ k ∉ d.map Prod.fst := by
  induction d with
  | nil => simp [dget]
  | cons p t ih =>
    obtain ⟨k0, v0⟩ := p
    by_cases h : k0 = k
    · subst h; simp [dget]
    · simp [dget, h, ih, Ne.symm h]

theorem dget_cons_self [DecidableEq κ] (d : List (κ × β)) (k : κ) (v : β) :
    dget ((k, v) :: d) k = some v := by
  simp [dget]

theorem dget_mem [DecidableEq κ] {d : List (κ × β)} {k : κ} {v : β}
    (h : dget d k = some v) : (k, v) ∈ d := by
  induction d with
  | nil => simp [dget] at h
  | cons p t ih =>
    obtain ⟨k0, v0⟩ := p
    by_cases hk : k0 = k
    · subst hk; simp [dget] at h; simp [h]
    · simp [dget, hk] at h
      exact List.mem_cons_of_mem _ (ih h)

theorem dget_of_mem_nodup [DecidableEq κ] {d : List (κ × β)} {k : κ} {v : β}
    (hn : (d.map Prod.fst).Nodup) (h : (k, v) ∈ d) : dget d k = some v := by
  induction d with
  | nil => simp at h
  | cons p t ih =>
    obtain ⟨k0, v0⟩ := p
    simp only [List.map_cons, List.nodup_cons] at hn
    rcases List.mem_cons.mp h with h1 | h1
    · cases h1; simp [dget]
    · have hne : k0 ≠ k := by
        intro he; subst he
        exact hn.1 (List.mem_map_of_mem Prod.fst h1)
      simp [dget, hne]
      exact ih hn.2 h1

theorem dget_dset_self [DecidableEq κ] (d : List (κ × β)) (k : κ) (v : β) :
    dget (dset d k v) k = some v := by
  induction d with
  | nil => simp [dget, dset]
  | cons p t ih =>
    obtain ⟨k0, v0⟩ := p
    by_cases h : k0 = k
    · subst h; simp [dget, dset]
    · simp [dget, dset, h, ih]

theorem dget_dset_ne [DecidableEq κ] (d : List (κ × β)) {k k2 : κ} (v : β)
    (h : k2 ≠ k) : dget (dset d k v) k2 = dget d k2 := by
  induction d with
  | nil => simp [dget, dset, Ne.symm h]
  | cons p t ih =>
    obtain ⟨k0, v0⟩ := p
    by_cases h0 : k0 = k
    · subst h0
      simp [dget, dset, Ne.symm h]
    · by_cases h2 : k0 = k2
      · subst h2
        simp [dget, dset, h0]
      · simp [dget, dset, h0, h2, ih]

theorem map_fst_dset [DecidableEq κ] (d : List (κ × β)) (k : κ) (v : β) :
    (dset d k v).map Prod.fst =
      if k ∈ d.map Prod.fst then d.map Prod.fst else d.map Prod.fst ++ [k] := by
  induction d with
  | nil => simp [dset]
  | cons p t ih =>
    obtain ⟨k0, v0⟩ := p
    by_cases h : k0 = k
    · subst h; simp [dset]
    · simp only [dset, h, if_false, List.map_cons, ih]
      by_cases hm : k ∈ t.map Prod.fst <;> simp [hm, Ne.symm h]

theorem dset_of_not_mem [DecidableEq κ] {d : List (κ × β)} {k : κ} (v : β)
    (h : k ∉ d.map Prod.fst) : dset d k v = d ++ [(k, v)] := by
  induction d with
  | nil => simp [dset]
  | cons p t ih =>
    obtain ⟨k0, v0⟩ := p
    simp only [List.map_cons, List.mem_cons] at h
    push_neg at h
    simp [dset, Ne.symm h.1, ih h.2]

/-- The value at k after a sequence of dict assignments: the last assigned
value for k when there is one. -/
def lastGet [DecidableEq κ] : List (κ × β) → κ → Option β
  | [], _ => none
  | (k0, v0) :: t, k =>
    match lastGet t k with
    | some v => some v
    | none => if k0 = k then some v0 else none

theorem dget_odUpdate [DecidableEq κ] (d s : List (κ × β)) (k : κ) :
    dget (odUpdate d s) k =
      match lastGet s k with
      | some v => some v
      | none => dget d k := by
  induction s generalizing d with
  | nil => simp [odUpdate, lastGet]
  | cons p t ih =>
    obtain ⟨k0, v0⟩ := p
    have hstep : odUpdate d ((k0, v0) :: t) = odUpdate (dset d k0 v0) t := by
      simp [odUpdate]
    rw [hstep, ih]
    cases hl : lastGet t k with
    | some v => simp [lastGet, hl]
    | none =>
      by_cases h : k0 = k
      · subst h; simp [lastGet, hl, dget_dset_self]
      · simp [lastGet, hl, h, dget_dset_ne _ _ (Ne.symm h)]

/-- The key order produced by a sequence of dict assignments. -/
def odKeys [DecidableEq κ] : List κ → List κ → List κ
  | ks, [] => ks
  | ks, k :: s => odKeys (if k ∈ ks then ks else ks ++ [k]) s

theorem map_fst_odUpdate [DecidableEq κ] (d s : List (κ × β)) :
    (odUpdate d s).map Prod.fst = odKeys (d.map Prod.fst) (s.map Prod.fst) := by
  induction s generalizing d with
  | nil => simp [odUpdate, odKeys]
  | cons p t ih =>
    obtain ⟨k0, v0⟩ := p
    have hstep : odUpdate d ((k0, v0) :: t) = odUpdate (dset d k0 v0) t := by
      simp [odUpdate]
    rw [hstep, ih, map_fst_dset]
    simp only [odKeys, List.map_cons]

theorem odKeys_mem_mono [DecidableEq κ] {k : κ} {ks : List κ} (s : List κ)
    (h : k ∈ ks) : k ∈ odKeys ks s := by
  induction s generalizing ks with
  | nil => simpa [odKeys]
  | cons k0 t ih =>
    simp only [odKeys]
    by_cases h0 : k0 ∈ ks
    · simp only [h0, if_true]; exact ih h
    · simp only [h0, if_false]
      exact ih (List.mem_append_left _ h)

theorem odKeys_mem_of_mem [DecidableEq κ] {k : κ} (ks : List κ) {s : List κ}
    (h : k ∈ s) : k ∈ odKeys ks s := by
  induction s generalizing ks with
  | nil => simp at h
  | cons k0 t ih =>
    simp only [odKeys]
    rcases List.mem_cons.mp h with h1 | h1
    · subst h1
      by_cases h0 : k ∈ ks
      · simp only [h0, if_true]; exact odKeys_mem_mono t h0
      · simp only [h0, if_false]
        exact odKeys_mem_mono t (List.mem_append_right _ (List.mem_singleton.mpr rfl))
    · by_cases h0 : k0 ∈ ks <;> simp only [h0, if_true, if_false] <;>
        exact ih _ h1

theorem odKeys_eq_of_subset [DecidableEq κ] {ks s : List κ}
    (h : ∀ k ∈ s, k ∈ ks) : odKeys ks s = ks := by
  induction s with
  | nil => simp [odKeys]
  | cons k0 t ih =>
    have h0 : k0 ∈ ks := h k0 (List.mem_cons_self _ _)
    simp only [odKeys, h0, if_true]
    exact ih (fun k hk => h k (List.mem_cons_of_mem _ hk))

theorem odKeys_nodup [DecidableEq κ] {ks : List κ} (s : List κ)
    (h : ks.Nodup) : (odKeys ks s).Nodup := by
  induction s generalizing ks with
  | nil => simpa [odKeys]
  | cons k0 t ih =>
    simp only [odKeys]
    by_cases h0 : k0 ∈ ks
    · simp only [h0, if_true]; exact ih h
    · simp only [h0, if_false]
      refine ih ?_
      simp [List.nodup_append, h, h0]

theorem dict_ext [DecidableEq κ] {d1 d2 : List (κ × β)}
    (hk : d1.map Prod.fst = d2.map Prod.fst) (hn : (d1.map Prod.fst).Nodup)
    (hv : ∀ k, dget d1 k = dget d2 k) : d1 = d2 := by
  induction d1 generalizing d2 with
  | nil =>
    cases d2 with
    | nil => rfl
    | cons p t => simp at hk
  | cons p t ih =>
    obtain ⟨k0, v0⟩ := p
    cases d2 with
    | nil => simp at hk
    | cons q u =>
      obtain ⟨k1, v1⟩ := q
      simp only [List.map_cons, List.cons.injEq] at hk
      obtain ⟨hk0, hku⟩ := hk
      subst hk0
      simp only [List.map_cons, List.nodup_cons] at hn
      have hvv : v0 = v1 := by
        have := hv k0
        simpa [dget] using this
      subst hvv
      refine congrArg _ (ih hku hn.2 ?_)
      intro k
      by_cases h : k0 = k
      · subst h
        rw [(dget_eq_none_iff t k0).mpr hn.1,
            (dget_eq_none_iff u k0).mpr (hku ▸ hn.1)]
      · have := hv k
        simpa [dget, h] using this

theorem odUpdate_self_idem [DecidableEq κ] (s : List (κ × β)) :
    odUpdate ([] : List (κ × β)) (s ++ s) = odUpdate [] s := by
  have happ : odUpdate ([] : List (κ × β)) (s ++ s) =
      odUpdate (odUpdate [] s) s := by
    simp [odUpdate, List.foldl_append]
  rw [happ]
  have hkeys1 : (odUpdate ([] : List (κ × β)) s).map Prod.fst =
      odKeys [] (s.map Prod.fst) := map_fst_odUpdate [] s
  refine dict_ext ?_ ?_ ?_
  · rw [map_fst_odUpdate, hkeys1]
    exact odKeys_eq_of_subset (fun k hk => odKeys_mem_of_mem [] hk)
  · rw [map_fst_odUpdate, hkeys1]
    rw [odKeys_eq_of_subset (fun k hk => odKeys_mem_of_mem [] hk)]
    exact odKeys_nodup _ List.nodup_nil
  · intro k
    rw [dget_odUpdate, dget_odUpdate []]
    cases h : lastGet s k with
    | some v => simp
    | none => simp [dget_odUpdate, h]

theorem odUpdate_nil_of_nodup_fst [DecidableEq κ] {s : List (κ × β)}
    (h : (s.map Prod.fst).Nodup) : odUpdate [] s = s := by
  suffices hgen : ∀ d : List (κ × β),
      (∀ k ∈ s.map Prod.fst, k ∉ d.map Prod.fst) → (s.map Prod.fst).Nodup →
      odUpdate d s = d ++ s by
    simpa using hgen [] (by simp) h
  clear h
  induction s with
  | nil => intro d _ _; simp [odUpdate]
  | cons p t ih =>
    intro d hd hn
    obtain ⟨k0, v0⟩ := p
    simp only [List.map_cons, List.nodup_cons] at hn
    have hstep : odUpdate d ((k0, v0) :: t) = odUpdate (dset d k0 v0) t := by
      simp [odUpdate]
    rw [hstep, dset_of_not_mem v0 (hd k0 (by simp))]
    rw [ih (d ++ [(k0, v0)]) ?_ hn.2]
    · simp
    · intro k hk
      simp only [List.map_append, List.mem_append]
      push_neg
      constructor
      · exact hd k (List.mem_cons_of_mem _ hk)
      · simp only [List.map_cons, List.map_nil, List.mem_singleton]
        intro he; subst he; exact hn.1 hk

/-! Deduplication lemmas. -/

theorem dedup_sublist {α : Type} (seen : List String)
    (l : List (String × RawRec α)) : List.Sublist (dedup seen l) l := by
  induction l generalizing seen with
  | nil => simp [dedup]
  | cons p t ih =>
    obtain ⟨k, v⟩ := p
    by_cases h : suffixKey k ∈ seen
    · simp only [dedup, h, if_true]
      exact (ih seen).trans (List.sublist_cons_self _ _)
    · simp only [dedup, h, if_false]
      exact (ih _).cons₂ _

theorem dedup_suffix_nodup {α : Type} :
    ∀ (l : List (String × RawRec α)) (seen : List String),
    ((dedup seen l).map (fun p => suffixKey p.1)).Nodup ∧
    ∀ x ∈ (dedup seen l).map (fun p => suffixKey p.1), x ∉ seen := by
  intro l
  induction l with
  | nil => intro seen; simp [dedup]
  | cons p t ih =>
    intro seen
    obtain ⟨k, v⟩ := p
    by_cases h : suffixKey k ∈ seen
    · simpa [dedup, h] using ih seen
    · simp only [dedup, h, if_false, List.map_cons, List.nodup_cons]
      obtain ⟨ihn, ihs⟩ := ih (suffixKey k :: seen)
      refine ⟨⟨?_, ihn⟩, ?_⟩
      · intro hmem
        exact (ihs _ hmem) (List.mem_cons_self _ _)
      · intro x hx
        rcases List.mem_cons.mp hx with h1 | h1
        · subst h1; exact h
        · intro hxs
          exact (ihs x h1) (List.mem_cons_of_mem _ hxs)

theorem dedup_first_kept {α : Type} (s2 : List (String × RawRec α))
    (k : String) (v : RawRec α) :
    ∀ (s1 : List (String × RawRec α)) (seen : List String),
    suffixKey k ∉ seen → (∀ p ∈ s1, suffixKey p.1 ≠ suffixKey k) →
    (k, v) ∈ dedup seen (s1 ++ (k, v) :: s2) := by
  intro s1
  induction s1 with
  | nil =>
    intro seen hks _
    simp [dedup, hks]
  | cons p t ih =>
    intro seen hks hall
    obtain ⟨k0, v0⟩ := p
    by_cases h : suffixKey k0 ∈ seen
    · simp only [List.cons_append, dedup, h, if_true]
      exact ih seen hks (fun q hq => hall q (List.mem_cons_of_mem _ hq))
    · simp only [List.cons_append, dedup, h, if_false]
      refine List.mem_cons_of_mem _
        (ih _ ?_ (fun q hq => hall q (List.mem_cons_of_mem _ hq)))
      intro hmem
      rcases List.mem_cons.mp hmem with h1 | h1
      · exact (hall (k0, v0) (List.mem_cons_self _ _)) h1.symm
      · exact hks h1

/-- Claim C7: ingestion deduplication is first-wins and idempotent: ingesting
the concatenation of a raw source with itself yields exactly the same result
as ingesting it once; the dedup pass keeps a subsequence of the dict entries
containing at most one entry per (return, depends) key suffix; and for every
raw source with distinct composite keys, the first raw block of a given key
suffix is kept. -/
theorem c7_dedup_first_wins_idempotent {α : Type} [DecidableEq α] :
    (∀ src : List (String × RawRec α),
       load_parameters (src ++ src) = load_parameters src) ∧
    (∀ l : List (String × RawRec α), List.Sublist (dedup [] l) l) ∧
    (∀ l : List (String × RawRec α),
       ((dedup [] l).map (fun p => suffixKey p.1)).Nodup) ∧
    (∀ (s1 s2 : List (String × RawRec α)) (k : String) (v : RawRec α),
       (∀ p ∈ s1, suffixKey p.1 ≠ suffixKey k) →
       ((s1 ++ (k, v) :: s2).map Prod.fst).Nodup →
       (k, v) ∈ dedup [] (odUpdate [] (s1 ++ (k, v) :: s2))) := by
  refine ⟨?_, ?_, ?_, ?_⟩
  · intro src
    simp only [load_parameters, odUpdate_self_idem]
  · intro l; exact dedup_sublist [] l
  · intro l; exact (dedup_suffix_nodup l []).1
  · intro s1 s2 k v hall hnd
    rw [odUpdate_nil_of_nodup_fst hnd]
    exact dedup_first_kept s2 k v s1 [] (by simp) hall

/-- A concrete record used by witnesses: table A, no dependency. -/
def wrecA : RawRec Nat :=
  { exec := "A", step_name := "A_1", sequence_name := "A_1", attrs := [] }

/-- A concrete record used by witnesses: table B. -/
def wrecB : RawRec Nat :=
  { exec := "B", step_name := "B_1", sequence_name := "B_1", attrs := [] }

/-- Witness for claim C7 at a concrete two-record source. -/
theorem c7_dedup_first_wins_idempotent_witness :
    load_parameters ([("1_a", wrecA), ("2_b", wrecB)] ++
        [("1_a", wrecA), ("2_b", wrecB)]) =
      load_parameters [("1_a", wrecA), ("2_b", wrecB)] ∧
    ("2_b", wrecB) ∈ dedup [] (odUpdate [] [("1_a", wrecA), ("2_b", wrecB)]) :=
  ⟨(c7_dedup_first_wins_idempotent).1 [("1_a", wrecA), ("2_b", wrecB)],
   (c7_dedup_first_wins_idempotent).2.2.2 [("1_a", wrecA)] [] "2_b" wrecB
     (by decide) (by decide)⟩

/-! Dependency search and chain resolution lemmas. -/

theorem searchIdx_eq_none {x : String} {l : List String}
    (h : ∀ kk ∈ l, part1 kk ≠ some x) : searchIdx x l = none := by
  induction l with
  | nil => simp [searchIdx]
  | cons kk rest ih =>
    have h0 : part1 kk ≠ some x := h kk (List.mem_cons_self _ _)
    simp only [searchIdx, h0, if_false]
    rw [ih (fun q hq => h q (List.mem_cons_of_mem _ hq))]
    rfl

theorem searchIdx_spec {x : String} :
    ∀ {l : List String} {i : Nat}, searchIdx x l = some i →
    i < l.length ∧ (∃ kk, l[i]? = some kk ∧ part1 kk = some x) ∧
    ∀ j kk2, j < i → l[j]? = some kk2 → part1 kk2 ≠ some x := by
  intro l
  induction l with
  | nil => intro i h; simp [searchIdx] at h
  | cons kk rest ih =>
    intro i h
    by_cases h0 : part1 kk = some x
    · simp only [searchIdx, h0, if_true] at h
      cases h
      exact ⟨by simp, ⟨kk, by simp, h0⟩, by intro j kk2 hj; omega⟩
    · simp only [searchIdx, h0, if_false] at h
      cases hr : searchIdx x rest with
      | none => rw [hr] at h; simp at h
      | some i0 =>
        rw [hr] at h
        rw [show (some i0).map (· + 1) = some (i0 + 1) from rfl] at h
        cases h
        obtain ⟨hlen, ⟨kk1, hkk1, hp1⟩, hbefore⟩ := ih hr
        refine ⟨by simpa using Nat.succ_lt_succ hlen, ⟨kk1, by simpa using hkk1, hp1⟩, ?_⟩
        intro j kk2 hj hget
        cases j with
        | zero =>
          simp only [List.getElem?_cons_zero, Option.some.injEq] at hget
          exact hget ▸ h0
        | succ j0 =>
          exact hbefore j0 kk2 (Nat.lt_of_succ_lt_succ hj) (by simpa using hget)

/-- Claim C1: an unresolvable depends reference aborts the build with a
ResultDBError whose message embeds the offending value, both when a depends
return-id matches no record during ingestion (search_dependent_index) and
when a depends step_id is found in no table during chain resolution
(__get_sequence); the error result carries no store, so no result is
produced. -/
theorem c1_dependency_not_found {α : Type} :
    (∀ (data : List (String × RawRec α)) (x : String),
       (∀ kk ∈ data.map Prod.fst, part1 kk ≠ some x) →
       search_dependent_index data x =
         .error (.resultDBError (depNotFoundMsg x))) ∧
    (∀ x : String, ∃ p q, depNotFoundMsg x = p ++ x ++ q) ∧
    (∀ (dataT : List (String × Table α)) (fuel : Nat) (step : String)
       (sid idx : Nat) (acc : List (String × Nat)) (tb : Table α) (d : Nat),
       dget dataT step = some tb → tb.depends[idx]? = some (some d) →
       findStep dataT d = none →
       getSequenceF dataT (fuel + 1) step sid idx acc =
         some (.error (.resultDBError (stepIdNotFoundMsg d)))) ∧
    (∀ n : Nat, ∃ p q, stepIdNotFoundMsg n = p ++ toString n ++ q) := by
  refine ⟨?_, ?_, ?_, ?_⟩
  · intro data x h
    unfold search_dependent_index
    rw [searchIdx_eq_none h]
  · intro x
    exact ⟨"Cannot find dependency step for output ``", "``!", rfl⟩
  · intro dataT fuel step sid idx acc tb d h1 h2 h3
    simp only [getSequenceF, h1, h2, h3]
  · intro n
    exact ⟨"Cannot find step_id ``", "`` in any tables!", rfl⟩

/-- A concrete table whose single record has a dangling depends id 99. -/
def wtbDangling : Table Nat :=
  { step_id := [2], ret := ["b"], depends := [some 99], attrs := [] }

/-- Witness for claim C1: the dangling reference 99 produces the
DependencyNotFoundError paths at concrete inputs. -/
theorem c1_dependency_not_found_witness :
    search_dependent_index [("1_a", wrecA)] "99" =
      .error (.resultDBError (depNotFoundMsg "99")) ∧
    getSequenceF [("B", wtbDangling)] 3 "B" 2 0 [] =
      some (.error (.resultDBError (stepIdNotFoundMsg 99))) :=
  ⟨(c1_dependency_not_found).1 [("1_a", wrecA)] "99" (by decide),
   (c1_dependency_not_found).2.2.1 [("B", wtbDangling)] 2 "B" 2 0 []
     wtbDangling 99 (by decide) (by decide) (by decide)⟩

theorem getSequenceF_acc {α : Type} (dataT : List (String × Table α)) :
    ∀ (fuel : Nat) (s : String) (i idx : Nat) (acc l : List (String × Nat)),
    getSequenceF dataT fuel s i idx acc = some (.ok l) →
    ∃ rest, l = acc ++ (s, i) :: rest := by
  intro fuel
  induction fuel with
  | zero => intro s i idx acc l h; simp [getSequenceF] at h
  | succ f ih =>
    intro s i idx acc l h
    cases hdg : dget dataT s with
    | none => simp [getSequenceF, hdg] at h
    | some tb =>
      cases hdep : tb.depends[idx]? with
      | none => simp [getSequenceF, hdg, hdep] at h
      | some o =>
        cases o with
        | none =>
          simp only [getSequenceF, hdg, hdep, Option.some.injEq,
            Except.ok.injEq] at h
          exact ⟨[], by simp [← h]⟩
        | some d =>
          cases hfind : findStep dataT d with
          | none => simp [getSequenceF, hdg, hdep, hfind] at h
          | some p =>
            obtain ⟨k, j⟩ := p
            simp only [getSequenceF, hdg, hdep, hfind] at h
            obtain ⟨rest, hrest⟩ := ih k d j (acc ++ [(s, i)]) l h
            exact ⟨(k, d) :: rest, by simpa using hrest⟩

/-- Claim C2: chain resolution is deterministic (a pure function of the
record store) and, after the backward walk is reversed, the last element of
a successfully returned sequence is the queried (table, step_id) pair. -/
theorem c2_resolve_chain_last {α : Type} :
    (∀ (dataT : List (String × Table α)) (fuel : Nat) (t : String)
       (i idx : Nat),
       getSequenceF dataT fuel t i idx [] = getSequenceF dataT fuel t i idx []) ∧
    (∀ (dataT : List (String × Table α)) (fuel : Nat) (t : String)
       (i idx : Nat) (l : List (String × Nat)),
       getSequenceF dataT fuel t i idx [] = some (.ok l) →
       l.reverse.getLast? = some (t, i)) := by
  refine ⟨fun _ _ _ _ _ => rfl, ?_⟩
  intro dataT fuel t i idx l h
  obtain ⟨rest, hrest⟩ := getSequenceF_acc dataT fuel t i idx [] l h
  subst hrest
  simp

/-- A concrete store of two chained records for witnesses: B step 2 depends
on A step 1. -/
def wdataChain : List (String × Table Nat) :=
  [("A", { step_id := [1], ret := ["a"], depends := [none], attrs := [] }),
   ("B", { step_id := [2], ret := ["b"], depends := [some 1], attrs := [] })]

/-- Witness for claim C2 at a concrete two-step chain. -/
theorem c2_resolve_chain_last_witness :
    getSequenceF wdataChain 3 "B" 2 0 [] =
      some (.ok [("B", 2), ("A", 1)]) ∧
    [("B", 2), ("A", 1)].reverse.getLast? = some ("B", 2) :=
  ⟨by decide,
   (c2_resolve_chain_last).2 wdataChain 3 "B" 2 0 [("B", 2), ("A", 1)]
     (by decide)⟩

/-- Counterexample to claim C8 as stated: search_dependent_index scans the
whole deduplicated data dict, not only the records ingested before the
referring one, so a forward reference resolves.  In the source
[("1_a_b", wrecA), ("2_b", wrecB)] the first record (step_id 1) depends on
return b, provided only by the second record, and ingestion succeeds with a
resolved depends of 2, which is not less than the step_id 1. -/
theorem c8_counterexample :
    (load_parameters [("1_a_b", wrecA), ("2_b", wrecB)]).map
        (fun st => (dget st.data "A").map (fun tb => (tb.step_id, tb.depends)))
      = Except.ok (some ([1], [some 2])) ∧ ¬ (2 < 1) := by decide

/-- Claim C8 (amended): a successfully resolved depends reference is the
1-based position in the deduplicated source of the first record whose return
component matches the reference, hence it lies between 1 and the number of
records; it need not be smaller than the referring record own step_id,
because the resolver scans the entire deduplicated source. -/
theorem c8_amended_search_bounds {α : Type} (data : List (String × RawRec α))
    (x : String) (r : Nat) (h : search_dependent_index data x = .ok r) :
    1 ≤ r ∧ r ≤ data.length ∧
    ∃ kk, (data.map Prod.fst)[r - 1]? = some kk ∧ part1 kk = some x ∧
      ∀ j kk2, j < r - 1 → (data.map Prod.fst)[j]? = some kk2 →
        part1 kk2 ≠ some x := by
  unfold search_dependent_index at h
  cases hs : searchIdx x (data.map Prod.fst) with
  | none => rw [hs] at h; simp at h
  | some i =>
    rw [hs] at h
    cases h
    obtain ⟨hlen, hex, hbefore⟩ := searchIdx_spec hs
    have hlen2 : i < data.length := by simpa using hlen
    refine ⟨by omega, by omega, ?_⟩
    simpa only [Nat.add_sub_cancel] using ⟨hex.choose, hex.choose_spec.1,
      hex.choose_spec.2, hbefore⟩

/-- Witness for the amended claim C8 at a concrete source with a forward
reference: the resolved value 2 is within bounds and points at the first
matching record. -/
theorem c8_amended_search_bounds_witness :
    1 ≤ 2 ∧
    2 ≤ ([("1_a_b", wrecA), ("2_b", wrecB)] : List (String × RawRec Nat)).length ∧
    ∃ kk, (([("1_a_b", wrecA), ("2_b", wrecB)] :
        List (String × RawRec Nat)).map Prod.fst)[2 - 1]? = some kk ∧
      part1 kk = some "b" ∧
      ∀ j kk2, j < 2 - 1 →
        (([("1_a_b", wrecA), ("2_b", wrecB)] :
          List (String × RawRec Nat)).map Prod.fst)[j]? = some kk2 →
        part1 kk2 ≠ some "b" :=
  c8_amended_search_bounds [("1_a_b", wrecA), ("2_b", wrecB)] "b" 2 (by decide)

/-! Termination of chain resolution. -/

theorem listIndex_getElem {l : List Nat} {x i : Nat}
    (h : listIndex l x = some i) : l[i]? = some x := by
  induction l generalizing i with
  | nil => simp [listIndex] at h
  | cons y t ih =>
    by_cases hy : y = x
    · simp only [listIndex, hy, if_true] at h
      cases h
      simp [hy]
    · simp only [listIndex, hy, if_false] at h
      cases hr : listIndex t x with
      | none => rw [hr] at h; simp at h
      | some i0 =>
        rw [hr] at h
        rw [show (some i0).map (· + 1) = some (i0 + 1) from rfl] at h
        cases h
        simpa using ih hr

theorem findStep_spec {α : Type} {dataT : List (String × Table α)} {d : Nat}
    {k : String} {j : Nat} (h : findStep dataT d = some (k, j)) :
    ∃ tbk, (k, tbk) ∈ dataT ∧ listIndex tbk.step_id d = some j := by
  induction dataT with
  | nil => simp [findStep] at h
  | cons p rest ih =>
    obtain ⟨k0, tb0⟩ := p
    cases hli : listIndex tb0.step_id d with
    | some i0 =>
      simp only [findStep, hli] at h
      cases h
      exact ⟨tb0, List.mem_cons_self _ _, hli⟩
    | none =>
      simp only [findStep, hli] at h
      obtain ⟨tbk, hm, hl⟩ := ih h
      exact ⟨tbk, List.mem_cons_of_mem _ hm, hl⟩

/-- The per-record decreasing-dependency invariant of a record store: every
resolved depends id is strictly smaller than the step_id of the record that
carries it. -/
def storeDecreasing {α : Type} (dataT : List (String × Table α)) : Prop :=
  ∀ p ∈ dataT, ∀ (i d sid : Nat), p.2.depends[i]? = some (some d) →
    p.2.step_id[i]? = some sid → d < sid

theorem getSequenceF_total {α : Type} {dataT : List (String × Table α)}
    (hnd : (dataT.map Prod.fst).Nodup) (hdec : storeDecreasing dataT) :
    ∀ (fuel : Nat) (step : String) (tb : Table α) (idx sid : Nat)
      (acc : List (String × Nat)),
    sid < fuel → dget dataT step = some tb → tb.step_id[idx]? = some sid →
    (getSequenceF dataT fuel step sid idx acc).isSome ∧
    (∀ l, getSequenceF dataT fuel step sid idx acc = some (Except.ok l) →
      ∃ (t : String) (i : Nat) (tb2 : Table α) (j : Nat),
        l.getLast? = some (t, i) ∧ dget dataT t = some tb2 ∧
        tb2.step_id[j]? = some i ∧ tb2.depends[j]? = some none) := by
  intro fuel
  induction fuel with
  | zero =>
    intro step tb idx sid acc hlt
    exact absurd hlt (Nat.not_lt_zero _)
  | succ f ih =>
    intro step tb idx sid acc hlt hdg hsid
    cases hdep : tb.depends[idx]? with
    | none =>
      constructor
      · simp [getSequenceF, hdg, hdep]
      · intro l hl; simp [getSequenceF, hdg, hdep] at hl
    | some o =>
      cases o with
      | none =>
        constructor
        · simp [getSequenceF, hdg, hdep]
        · intro l hl
          simp only [getSequenceF, hdg, hdep, Option.some.injEq,
            Except.ok.injEq] at hl
          refine ⟨step, sid, tb, idx, ?_, hdg, hsid, hdep⟩
          rw [← hl]
          exact List.getLast?_concat _
      | some d =>
        cases hfind : findStep dataT d with
        | none =>
          constructor
          · simp [getSequenceF, hdg, hdep, hfind]
          · intro l hl; simp [getSequenceF, hdg, hdep, hfind] at hl
        | some p =>
          obtain ⟨k, j⟩ := p
          obtain ⟨tbk, hmem, hli⟩ := findStep_spec hfind
          have hdgk : dget dataT k = some tbk := dget_of_mem_nodup hnd hmem
          have hstepk : tbk.step_id[j]? = some d := listIndex_getElem hli
          have hdlt : d < sid :=
            hdec (step, tb) (dget_mem hdg) idx d sid hdep hsid
          have hrec := ih k tbk j d (acc ++ [(step, sid)]) (by omega) hdgk hstepk
          have heq : getSequenceF dataT (f + 1) step sid idx acc =
              getSequenceF dataT f k d j (acc ++ [(step, sid)]) := by
            simp [getSequenceF, hdg, hdep, hfind]
          constructor
          · rw [heq]; exact hrec.1
          · intro l hl
            rw [heq] at hl
            exact hrec.2 l hl

/-- Claim C9: on a record store whose keys are distinct (a dict) and in
which every resolved depends id is strictly smaller than the step_id of its
record, chain resolution started at a record with step_id sid terminates
within sid + 1 hops, and a successful resolution ends (at the head of the
reversed walk, i.e. the last element of the backward walk) at a record whose
depends is None. -/
theorem c9_resolution_terminates {α : Type} (dataT : List (String × Table α))
    (step : String) (tb : Table α) (idx sid : Nat) (acc : List (String × Nat))
    (hnd : (dataT.map Prod.fst).Nodup) (hdec : storeDecreasing dataT)
    (hdg : dget dataT step = some tb) (hsid : tb.step_id[idx]? = some sid) :
    (getSequenceF dataT (sid + 1) step sid idx acc).isSome ∧
    (∀ l, getSequenceF dataT (sid + 1) step sid idx acc = some (Except.ok l) →
      ∃ (t : String) (i : Nat) (tb2 : Table α) (j : Nat),
        l.getLast? = some (t, i) ∧ dget dataT t = some tb2 ∧
        tb2.step_id[j]? = some i ∧ tb2.depends[j]? = some none) :=
  getSequenceF_total hnd hdec (sid + 1) step tb idx sid acc
    (Nat.lt_succ_self _) hdg hsid

/-- Witness for claim C9 at the concrete two-step chained store. -/
theorem c9_resolution_terminates_witness :
    (getSequenceF wdataChain 3 "B" 2 0 []).isSome :=
  (c9_resolution_terminates wdataChain "B"
    { step_id := [2], ret := ["b"], depends := [some 1], attrs := [] } 0 2 []
    (by decide)
    (by
      intro p hp i d sid h1 h2
      simp only [wdataChain, List.mem_cons, List.not_mem_nil, or_false] at hp
      rcases hp with rfl | rfl
      · cases i with
        | zero => simp at h1
        | succ n => simp at h1
      · cases i with
        | zero => simp at h1 h2; omega
        | succ n => simp at h1)
    (by decide) (by decide)).1

/-- Whether an Except value is a success. -/
def exceptIsOk (e : Except ε β) : Bool :=
  match e with
  | .ok _ => true
  | .error _ => false

/-- A concrete record of table A with attribute key p. -/
def wrecP : RawRec Nat :=
  { exec := "A", step_name := "A_1", sequence_name := "A_1", attrs := [("p", 0)] }

/-- A concrete record of table A with attribute key q. -/
def wrecQ : RawRec Nat :=
  { exec := "A", step_name := "A_1", sequence_name := "A_1", attrs := [("q", 0)] }

/-- A concrete record of table A with attribute keys p then q. -/
def wrecPQ : RawRec Nat :=
  { exec := "A", step_name := "A_1", sequence_name := "A_1",
    attrs := [("p", 0), ("q", 1)] }

/-- A concrete record of table A with attribute keys q then p. -/
def wrecQP : RawRec Nat :=
  { exec := "A", step_name := "A_1", sequence_name := "A_1",
    attrs := [("q", 2), ("p", 3)] }

/-- Claim C3 evaluated on the code: two records of the same table with
differing attribute key sets make load_parameters raise IndexError — the
schema-mismatch format string indexes replacement field {4} while only four
positional arguments are passed, so str.format itself fails before the
intended ResultDBError naming the steps can be raised.  Matching key sets in
a different order raise no error. -/
theorem c3_schema_mismatch_raises_index_error :
    (load_parameters [("1_a", wrecP), ("2_b", wrecQ)] :
        Except DBError (Store Nat)) = .error .indexError ∧
    exceptIsOk (load_parameters [("1_a", wrecPQ), ("2_b", wrecQP)] :
        Except DBError (Store Nat)) = true := by decide

/-- Claim C6 evaluated on the code: a master-table row without an output
artifact is skipped without error by the collection loop (cbindData returns
ok with no enrichment rows), but when no row at all has an artifact the
column names stay None and cbind_output then evaluates [block_id] + None,
raising TypeError instead of returning the table unchanged. -/
theorem c6_no_artifact_type_error :
    cbindData "db" wdataChain (fun _ => none) [("A", 1)] none =
      .ok (none, []) ∧
    cbind_output "db" wdataChain (fun _ => none) [("A", 1)] =
      .error .typeError := by decide

/-! Shape grouping lemmas. -/

theorem dget_append [DecidableEq κ] (d1 d2 : List (κ × β)) (k : κ) :
    dget (d1 ++ d2) k =
      match dget d1 k with
      | some v => some v
      | none => dget d2 k := by
  induction d1 with
  | nil => simp [dget]
  | cons p t ih =>
    obtain ⟨k0, v0⟩ := p
    by_cases h : k0 = k <;> simp [dget, h, ih]

theorem sum_dset_map [DecidableEq κ] (f : κ × β → Nat) :
    ∀ (d : List (κ × β)) (k : κ) (rows v : β),
    dget d k = some rows →
    ((dset d k v).map f).sum + f (k, rows) = (d.map f).sum + f (k, v) := by
  intro d
  induction d with
  | nil => intro k rows v h; simp [dget] at h
  | cons p t ih =>
    intro k rows v h
    obtain ⟨k0, v0⟩ := p
    by_cases h0 : k0 = k
    · subst h0
      rw [dget_cons_self] at h
      simp only [Option.some.injEq] at h
      rw [← h]
      have hd : dset ((k0, v0) :: t) k0 v = (k0, v) :: t := by simp [dset]
      rw [hd]
      simp only [List.map_cons, List.sum_cons]
      omega
    · simp only [dget, h0, if_false] at h
      simp only [dset, h0, if_false, List.map_cons, List.sum_cons]
      have := ih k rows v h
      omega

/-- Invariant of the grouping loop of write_master_table after the chains in
processed have been added: group keys are distinct, each group holds its
header followed by the flattened chains of its shape in order, every
processed chain has a group, and the groups hold one data row per processed
chain. -/
def groupInv (groups : List (String × List String))
    (processed : List (List (String × Nat)))
    (data : List (List String × List (List Cell))) : Prop :=
  (data.map Prod.fst).Nodup ∧
  (∀ key rows, dget data key = some rows →
    rows = headerRow key ::
      (processed.filter (fun c => chainShape groups c = Except.ok key)).map
        flattenChain) ∧
  (∀ c ∈ processed, ∃ key, chainShape groups c = Except.ok key ∧
    (dget data key).isSome) ∧
  (data.map (fun g => g.2.length - 1)).sum = processed.length

theorem addChain_inv {groups : List (String × List String)}
    {processed : List (List (String × Nat))}
    {data data2 : List (List String × List (List Cell))}
    {c : List (String × Nat)}
    (h : addChain groups data c = .ok data2)
    (inv : groupInv groups processed data) :
    groupInv groups (processed ++ [c]) data2 := by
  obtain ⟨hnd, hrows, hproc, hsum⟩ := inv
  cases hsh : chainShape groups c with
  | error e => simp [addChain, hsh] at h
  | ok key =>
    cases hg : dget data key with
    | none =>
      simp only [addChain, hsh, hg, Except.ok.injEq] at h
      subst h
      have hkeynot : key ∉ data.map Prod.fst := (dget_eq_none_iff data key).mp hg
      have hfilterproc :
          processed.filter (fun c2 => chainShape groups c2 = Except.ok key) = [] := by
        rw [List.filter_eq_nil_iff]
        intro p hp
        simp only [decide_eq_true_eq]
        intro hshp
        obtain ⟨key2, hsh2, hsome2⟩ := hproc p hp
        rw [hshp] at hsh2
        cases hsh2
        rw [hg] at hsome2
        simp at hsome2
      refine ⟨?_, ?_, ?_, ?_⟩
      · rw [List.map_append, List.nodup_append]
        refine ⟨hnd, by simp, ?_⟩
        intro a ha
        simp only [List.map_cons, List.map_nil, List.mem_singleton]
        intro he; subst he; exact hkeynot ha
      · intro key2 rows2 hget2
        rw [dget_append] at hget2
        cases hgd : dget data key2 with
        | some r0 =>
          rw [hgd] at hget2
          simp only [Option.some.injEq] at hget2
          subst hget2
          have hne : key2 ≠ key := by
            intro he; rw [he, hg] at hgd; cases hgd
          rw [List.filter_append]
          have : [c].filter (fun c2 => chainShape groups c2 = Except.ok key2) = [] := by
            simp [hsh, Ne.symm hne]
          rw [this, List.append_nil]
          exact hrows key2 r0 hgd
        | none =>
          rw [hgd] at hget2
          by_cases he : key = key2
          · subst he
            rw [dget_cons_self] at hget2
            simp only [Option.some.injEq] at hget2
            subst hget2
            rw [List.filter_append, hfilterproc]
            have : [c].filter (fun c2 => chainShape groups c2 = Except.ok key) = [c] := by
              simp [hsh]
            rw [this]
            simp
          · simp only [dget, he, if_false] at hget2
            cases hget2
      · intro c2 hc2
        rcases List.mem_append.mp hc2 with h1 | h1
        · obtain ⟨key2, hsh2, hsome2⟩ := hproc c2 h1
          refine ⟨key2, hsh2, ?_⟩
          rw [dget_append]
          cases hdk : dget data key2 with
          | none => rw [hdk] at hsome2; simp at hsome2
          | some r => simp
        · simp only [List.mem_singleton] at h1
          subst h1
          refine ⟨key, hsh, ?_⟩
          rw [dget_append, hg]
          simp [dget]
      · simp only [List.map_append, List.sum_append, List.map_cons,
          List.map_nil, List.sum_cons, List.sum_nil, List.length_append,
          List.length_cons, List.length_nil]
        omega
    | some rows =>
      simp only [addChain, hsh, hg, Except.ok.injEq] at h
      subst h
      have hkeymem : key ∈ data.map Prod.fst :=
        List.mem_map_of_mem Prod.fst (dget_mem hg)
      have hrowskey := hrows key rows hg
      refine ⟨?_, ?_, ?_, ?_⟩
      · rw [map_fst_dset, if_pos hkeymem]
        exact hnd
      · intro key2 rows2 hget2
        by_cases he : key2 = key
        · subst he
          rw [dget_dset_self] at hget2
          simp only [Option.some.injEq] at hget2
          subst hget2
          rw [List.filter_append]
          have : [c].filter (fun c2 => chainShape groups c2 = Except.ok key2) = [c] := by
            simp [hsh]
          rw [this, hrowskey]
          simp
        · rw [dget_dset_ne _ _ he] at hget2
          rw [List.filter_append]
          have hne2 : key ≠ key2 := fun hh => he hh.symm
          have : [c].filter (fun c2 => chainShape groups c2 = Except.ok key2) = [] := by
            simp [hsh, hne2]
          rw [this, List.append_nil]
          exact hrows key2 rows2 hget2
      · intro c2 hc2
        rcases List.mem_append.mp hc2 with h1 | h1
        · obtain ⟨key2, hsh2, hsome2⟩ := hproc c2 h1
          refine ⟨key2, hsh2, ?_⟩
          by_cases he : key2 = key
          · subst he; rw [dget_dset_self]; simp
          · rw [dget_dset_ne _ _ he]; exact hsome2
        · simp only [List.mem_singleton] at h1
          subst h1
          exact ⟨key, hsh, by rw [dget_dset_self]; simp⟩
      · have hlen : rows.length = rows.length - 1 + 1 := by
          rw [hrowskey]; simp
        have hds := sum_dset_map (fun g => g.2.length - 1) data key rows
          (rows ++ [flattenChain c]) hg
        simp only [List.length_append, List.length_cons, List.length_nil] at hds
        simp only [List.length_append, List.length_cons, List.length_nil]
        omega

theorem groupChains_inv (groups : List (String × List String)) :
    ∀ (chains processed : List (List (String × Nat)))
      (data result : List (List String × List (List Cell))),
    groupChains groups chains data = .ok result →
    groupInv groups processed data →
    groupInv groups (processed ++ chains) result := by
  intro chains
  induction chains with
  | nil =>
    intro processed data result h inv
    simp only [groupChains, Except.ok.injEq] at h
    subst h
    simpa using inv
  | cons c rest ih =>
    intro processed data result h inv
    cases hadd : addChain groups data c with
    | error e => simp [groupChains, hadd] at h
    | ok d2 =>
      simp only [groupChains, hadd] at h
      have := ih (processed ++ [c]) d2 result h (addChain_inv hadd inv)
      simpa [List.append_assoc] using this

/-- Claim C4: for every set of chains resolved for a terminal block,
grouping by shape is an exhaustive and disjoint partition — the group keys
are pairwise distinct, each shape group holds exactly the flattened chains
of its shape in order behind its block_name/block_id header, every chain has
a group, and the total number of data rows equals the number of chains; the
master table is the column-wise concatenation of the shape-group tables in
first-seen order. -/
theorem c4_shape_grouping_partitions
    (groups : List (String × List String))
    (chains : List (List (String × Nat)))
    (tbls : List (List Cell × List (List Cell)))
    (h : write_master_groups groups chains = .ok tbls) :
    ∃ keys : List (List String),
      keys.Nodup ∧
      tbls = keys.map (fun key => (headerRow key,
        (chains.filter (fun c => chainShape groups c = Except.ok key)).map
          flattenChain)) ∧
      (∀ c ∈ chains, ∃ key ∈ keys, chainShape groups c = Except.ok key) ∧
      (tbls.map (fun t => t.2.length)).sum = chains.length := by
  unfold write_master_groups at h
  cases hgc : groupChains groups chains [] with
  | error e => rw [hgc] at h; cases h
  | ok data =>
    rw [hgc] at h
    simp only [Except.ok.injEq] at h
    subst h
    have inv0 : groupInv groups [] [] := by
      refine ⟨by simp, ?_, by simp, by simp⟩
      intro key rows hk
      simp [dget] at hk
    have inv := groupChains_inv groups chains [] [] data hgc inv0
    simp only [List.nil_append] at inv
    obtain ⟨hnd, hrows, hproc, hsum⟩ := inv
    refine ⟨data.map Prod.fst, hnd, ?_, ?_, ?_⟩
    · rw [List.map_map]
      apply List.map_congr_left
      intro g hg
      have hget : dget data g.1 = some g.2 := dget_of_mem_nodup hnd hg
      have hr := hrows g.1 g.2 hget
      simp only [Function.comp_apply]
      rw [hr]
      simp
    · intro c hc
      obtain ⟨key, hsh2, hsome⟩ := hproc c hc
      refine ⟨key, ?_, hsh2⟩
      cases hdk : dget data key with
      | none => rw [hdk] at hsome; simp at hsome
      | some r => exact List.mem_map_of_mem Prod.fst (dget_mem hdk)
    · rw [List.map_map]
      have heq : data.map
          ((fun t => t.2.length) ∘ (fun g => (g.2.headD [], g.2.drop 1))) =
          data.map (fun g => g.2.length - 1) := by
        apply List.map_congr_left
        intro g _
        simp
      rw [heq, hsum]

/-- Concrete block groups for the C4 witness: block sim holds table A, block
ana holds tables B and C. -/
def wgrps : List (String × List String) := [("sim", ["A"]), ("ana", ["B", "C"])]

/-- Concrete chains for the C4 witness, both of shape (sim, ana). -/
def wchains : List (List (String × Nat)) :=
  [[("A", 1), ("B", 2)], [("A", 3), ("C", 4)]]

/-- The master table built from the C4 witness chains: one shape group. -/
def wtbls : List (List Cell × List (List Cell)) :=
  [(headerRow ["sim", "ana"],
    [flattenChain [("A", 1), ("B", 2)], flattenChain [("A", 3), ("C", 4)]])]

/-- Witness for claim C4 at two concrete chains of the same shape. -/
theorem c4_shape_grouping_partitions_witness :
    ∃ keys : List (List String),
      keys.Nodup ∧
      wtbls = keys.map (fun key => (headerRow key,
        (wchains.filter (fun c => chainShape wgrps c = Except.ok key)).map
          flattenChain)) ∧
      (∀ c ∈ wchains, ∃ key ∈ keys, chainShape wgrps c = Except.ok key) ∧
      (wtbls.map (fun t => t.2.length)).sum = wchains.length :=
  c4_shape_grouping_partitions wgrps wchains wtbls (by decide)

/-! Output enrichment lemmas. -/

theorem cbindData_ids_sublist {α : Type} (name : String)
    (dataT : List (String × Table α))
    (art : String → Option (List (String × List α))) :
    ∀ (rows : List (String × Nat)) (cn cn2 : Option (List String))
      (d : List (Nat × List α)),
    cbindData name dataT art rows cn = .ok (cn2, d) →
    List.Sublist (d.map Prod.fst) (rows.map Prod.snd) := by
  intro rows
  induction rows with
  | nil =>
    intro cn cn2 d h
    simp only [cbindData, Except.ok.injEq, Prod.mk.injEq] at h
    rw [← h.2]
    simp
  | cons r rest ih =>
    intro cn cn2 d h
    obtain ⟨step, idx⟩ := r
    cases hret : retOf dataT step idx with
    | error e => simp [cbindData, hret] at h
    | ok rv =>
      cases hart : art (rdsPath name rv) with
      | none =>
        simp only [cbindData, hret, hart] at h
        exact (ih cn cn2 d h).trans (List.sublist_cons_self _ _)
      | some rdata =>
        cases cn with
        | none =>
          cases hrec : cbindData name dataT art rest
              (some (expandRdata rdata).1) with
          | error er => simp [cbindData, hret, hart, hrec] at h
          | ok r2 =>
            simp only [cbindData, hret, hart, hrec, Except.ok.injEq,
              Prod.mk.injEq] at h
            rw [← h.2]
            simp only [List.map_cons]
            exact (ih _ r2.1 r2.2 hrec).cons₂ _
        | some cs =>
          by_cases hcs : cs = (expandRdata rdata).1
          · subst hcs
            cases hrec : cbindData name dataT art rest
                (some (expandRdata rdata).1) with
            | error er => simp [cbindData, hret, hart, hrec] at h
            | ok r2 =>
              simp only [cbindData, hret, hart, eq_self_iff_true, if_true,
                hrec, Except.ok.injEq, Prod.mk.injEq] at h
              rw [← h.2]
              simp only [List.map_cons]
              exact (ih _ r2.1 r2.2 hrec).cons₂ _
          · simp [cbindData, hret, hart, hcs] at h

theorem cbindData_mem_artifact {α : Type} (name : String)
    (dataT : List (String × Table α))
    (art : String → Option (List (String × List α))) :
    ∀ (rows : List (String × Nat)) (cn cn2 : Option (List String))
      (d : List (Nat × List α)),
    cbindData name dataT art rows cn = .ok (cn2, d) →
    ∀ i ∈ d.map Prod.fst, ∃ r ∈ rows, r.2 = i ∧ ∃ rv rdata,
      retOf dataT r.1 r.2 = .ok rv ∧ art (rdsPath name rv) = some rdata := by
  intro rows
  induction rows with
  | nil =>
    intro cn cn2 d h
    simp only [cbindData, Except.ok.injEq, Prod.mk.injEq] at h
    rw [← h.2]
    simp
  | cons r rest ih =>
    intro cn cn2 d h i hi
    obtain ⟨step, idx⟩ := r
    cases hret : retOf dataT step idx with
    | error e => simp [cbindData, hret] at h
    | ok rv =>
      cases hart : art (rdsPath name rv) with
      | none =>
        simp only [cbindData, hret, hart] at h
        obtain ⟨r2, hr2, he2, hrest⟩ := ih cn cn2 d h i hi
        exact ⟨r2, List.mem_cons_of_mem _ hr2, he2, hrest⟩
      | some rdata =>
        cases cn with
        | none =>
          cases hrec : cbindData name dataT art rest
              (some (expandRdata rdata).1) with
          | error er => simp [cbindData, hret, hart, hrec] at h
          | ok r2 =>
            simp only [cbindData, hret, hart, hrec, Except.ok.injEq,
              Prod.mk.injEq] at h
            rw [← h.2] at hi
            simp only [List.map_cons, List.mem_cons] at hi
            rcases hi with h1 | h1
            · exact ⟨(step, idx), List.mem_cons_self _ _, h1.symm,
                rv, rdata, hret, hart⟩
            · obtain ⟨r3, hr3, he3, hrest⟩ := ih _ r2.1 r2.2 hrec i h1
              exact ⟨r3, List.mem_cons_of_mem _ hr3, he3, hrest⟩
        | some cs =>
          by_cases hcs : cs = (expandRdata rdata).1
          · subst hcs
            cases hrec : cbindData name dataT art rest
                (some (expandRdata rdata).1) with
            | error er => simp [cbindData, hret, hart, hrec] at h
            | ok r2 =>
              simp only [cbindData, hret, hart, eq_self_iff_true, if_true,
                hrec, Except.ok.injEq, Prod.mk.injEq] at h
              rw [← h.2] at hi
              simp only [List.map_cons, List.mem_cons] at hi
              rcases hi with h1 | h1
              · exact ⟨(step, idx), List.mem_cons_self _ _, h1.symm,
                  rv, rdata, hret, hart⟩
              · obtain ⟨r3, hr3, he3, hrest⟩ := ih _ r2.1 r2.2 hrec i h1
                exact ⟨r3, List.mem_cons_of_mem _ hr3, he3, hrest⟩
          · simp [cbindData, hret, hart, hcs] at h

theorem filter_id_length_le_one {α : Type} :
    ∀ {d : List (Nat × List α)}, (d.map Prod.fst).Nodup → ∀ (i : Nat),
    (d.filter (fun m => m.1 = i)).length ≤ 1 := by
  intro d
  induction d with
  | nil => intro _ i; simp
  | cons m t ih =>
    intro hnd i
    simp only [List.map_cons, List.nodup_cons] at hnd
    by_cases hm : m.1 = i
    · have ht : t.filter (fun m2 => m2.1 = i) = [] := by
        rw [List.filter_eq_nil_iff]
        intro a ha
        simp only [decide_eq_true_eq]
        intro hai
        exact hnd.1 (by rw [hm, ← hai]; exact List.mem_map_of_mem Prod.fst ha)
      simp [List.filter_cons, hm, ht]
    · rw [List.filter_cons, if_neg (by simp [hm])]
      exact ih hnd.2 i

theorem nodup_snd_eq {l : List (String × Nat)}
    (h : (l.map Prod.snd).Nodup) {p q : String × Nat}
    (hp : p ∈ l) (hq : q ∈ l) (he : p.2 = q.2) : p = q := by
  induction l with
  | nil => simp at hp
  | cons a t ih =>
    simp only [List.map_cons, List.nodup_cons] at h
    rcases List.mem_cons.mp hp with h1 | h1 <;>
      rcases List.mem_cons.mp hq with h2 | h2
    · rw [h1, h2]
    · exfalso
      apply h.1
      rw [← h1, he]
      exact List.mem_map_of_mem Prod.snd h2
    · exfalso
      apply h.1
      rw [← h2, ← he]
      exact List.mem_map_of_mem Prod.snd h1
    · exact ih h.2 h1 h2

theorem outerJoin_flatMap_length {α : Type} (d : List (Nat × List α))
    (hdnd : (d.map Prod.fst).Nodup) :
    ∀ tbl : List (String × Nat),
    (tbl.flatMap (fun r =>
      let ms := d.filter (fun m => m.1 = r.2)
      if ms.isEmpty then [(some r, (none : Option (List α)))]
      else ms.map (fun m => (some r, some m.2)))).length = tbl.length := by
  intro tbl
  induction tbl with
  | nil => simp
  | cons r t ih =>
    simp only [List.flatMap_cons, List.length_append]
    by_cases hms : (d.filter (fun m => m.1 = r.2)).isEmpty
    · simp only [hms, if_true, List.length_cons, List.length_nil, ih]
      omega
    · have hle := filter_id_length_le_one hdnd r.2
      have hne : d.filter (fun m => m.1 = r.2) ≠ [] := by
        intro he; rw [he] at hms; simp at hms
      have h1 : (d.filter (fun m => m.1 = r.2)).length = 1 := by
        have hpos : 0 < (d.filter (fun m => m.1 = r.2)).length :=
          List.length_pos.mpr hne
        omega
      simp only [hms, Bool.false_eq_true, if_false, List.length_map, h1, ih,
        List.length_cons]
      omega

theorem outerJoin_length {α : Type} (table : List (String × Nat))
    (d : List (Nat × List α)) (hdnd : (d.map Prod.fst).Nodup)
    (hsub : ∀ i ∈ d.map Prod.fst, i ∈ table.map Prod.snd) :
    (outerJoin table d).length = table.length := by
  unfold outerJoin
  have hright : d.filter (fun m => !(table.any (fun r => r.2 = m.1))) = [] := by
    rw [List.filter_eq_nil_iff]
    intro m hm
    have hmem : m.1 ∈ table.map Prod.snd :=
      hsub m.1 (List.mem_map_of_mem Prod.fst hm)
    obtain ⟨r, hr, hre⟩ := List.mem_map.mp hmem
    simp only [Bool.not_eq_true', List.any_eq_false, decide_eq_true_eq, not_forall]
    push_neg
    exact ⟨r, hr, hre⟩
  rw [hright]
  simp only [List.map_nil, List.length_append, List.length_nil, Nat.add_zero]
  exact outerJoin_flatMap_length d hdnd table

/-- Claim C5: when the master table block_id column holds pairwise-distinct
values, a successful enrichment returns a table with exactly as many rows as
the input (the outer join on block_id neither drops nor duplicates rows),
and every row without an artifact is kept with null enrichment values. -/
theorem c5_outer_join_preserves_rows {α : Type} (name : String)
    (dataT : List (String × Table α))
    (art : String → Option (List (String × List α)))
    (table : List (String × Nat))
    (res : List (Option (String × Nat) × Option (List α)))
    (htnd : (table.map Prod.snd).Nodup)
    (h : cbind_output name dataT art table = .ok res) :
    res.length = table.length ∧
    ∀ r ∈ table, ∀ rv, retOf dataT r.1 r.2 = .ok rv →
      art (rdsPath name rv) = none →
      (some r, (none : Option (List α))) ∈ res := by
  unfold cbind_output at h
  cases hcb : cbindData name dataT art table none with
  | error e => rw [hcb] at h; cases h
  | ok p =>
    obtain ⟨cn2, d⟩ := p
    rw [hcb] at h
    cases cn2 with
    | none => cases h
    | some cs =>
      simp only [Except.ok.injEq] at h
      subst h
      have hsubl := cbindData_ids_sublist name dataT art table none (some cs) d hcb
      have hdnd : (d.map Prod.fst).Nodup := List.Nodup.sublist hsubl htnd
      have hsub : ∀ i ∈ d.map Prod.fst, i ∈ table.map Prod.snd :=
        fun i hi => hsubl.subset hi
      constructor
      · exact outerJoin_length table d hdnd hsub
      · intro r hr rv hret hart
        have hnotin : r.2 ∉ d.map Prod.fst := by
          intro hin
          obtain ⟨r2, hr2, he2, rv2, rdata2, hret2, hart2⟩ :=
            cbindData_mem_artifact name dataT art table none (some cs) d hcb
              r.2 hin
          have heq : r2 = r := nodup_snd_eq htnd hr2 hr he2
          rw [heq, hret] at hret2
          cases hret2
          rw [hart] at hart2
          cases hart2
        have hms : d.filter (fun m => m.1 = r.2) = [] := by
          rw [List.filter_eq_nil_iff]
          intro m hm
          simp only [decide_eq_true_eq]
          intro hmi
          exact hnotin (by rw [← hmi]; exact List.mem_map_of_mem Prod.fst hm)
        unfold outerJoin
        apply List.mem_append_left
        apply List.mem_flatMap.mpr
        refine ⟨r, hr, ?_⟩
        simp [hms]

/-- A concrete artifact store for witnesses: only db/b.rds exists, holding
one scalar value x = 7. -/
def wart : String → Option (List (String × List Nat)) :=
  fun p => if p = "db/b.rds" then some [("x", [7])] else none

/-- The enriched table of the C5 witness: the A row keeps nulls, the B row
is enriched. -/
def wres : List (Option (String × Nat) × Option (List Nat)) :=
  [(some ("A", 1), none), (some ("B", 2), some [7])]

/-- Witness for claim C5 at a concrete two-row master table where only the
second row has an artifact. -/
theorem c5_outer_join_preserves_rows_witness :
    wres.length = ([("A", 1), ("B", 2)] : List (String × Nat)).length ∧
    (some (("A" : String), (1 : Nat)), (none : Option (List Nat))) ∈ wres :=
  ⟨(c5_outer_join_preserves_rows "db" wdataChain wart [("A", 1), ("B", 2)]
      wres (by decide) (by decide)).1,
   (c5_outer_join_preserves_rows "db" wdataChain wart [("A", 1), ("B", 2)]
      wres (by decide) (by decide)).2 ("A", 1) (by decide) "a" (by decide)
      (by decide)⟩

/-! Ingestion invariant lemmas. -/

theorem dpop_fst_sublist [DecidableEq κ] (l : List (κ × β)) (k : κ) :
    List.Sublist ((dpop l k).2.map Prod.fst) (l.map Prod.fst) := by
  induction l with
  | nil => simp [dpop]
  | cons p t ih =>
    obtain ⟨k0, v0⟩ := p
    by_cases h : k0 = k
    · simp only [dpop, h, if_true, List.map_cons]
      exact List.sublist_cons_self _ _
    · simp only [dpop, h, if_false, List.map_cons]
      exact ih.cons₂ _

theorem dset_fst_nodup [DecidableEq κ] {d : List (κ × β)} (k : κ) (v : β)
    (hnd : (d.map Prod.fst).Nodup) : ((dset d k v).map Prod.fst).Nodup := by
  rw [map_fst_dset]
  by_cases h : k ∈ d.map Prod.fst
  · simp [h, hnd]
  · simp only [h, if_false]
    rw [List.nodup_append]
    refine ⟨hnd, by simp, ?_⟩
    intro a ha
    simp only [List.mem_singleton]
    intro he; subst he; exact h ha

theorem renameOne_fst_nodup {α : Type} {attrs : List (String × α)} (x : String)
    (hnd : (attrs.map Prod.fst).Nodup) :
    ((renameOne attrs x).map Prod.fst).Nodup := by
  cases hp : dpop attrs x with
  | mk o rest =>
    cases o with
    | none => simp only [renameOne, hp]; exact hnd
    | some v =>
      simp only [renameOne, hp]
      apply dset_fst_nodup
      have hsl : List.Sublist (rest.map Prod.fst) (attrs.map Prod.fst) := by
        have := dpop_fst_sublist attrs x
        rw [hp] at this
        exact this
      exact List.Nodup.sublist hsl hnd

theorem renameDots_fst_nodup {α : Type} {attrs : List (String × α)}
    (hnd : (attrs.map Prod.fst).Nodup) :
    ((renameDots attrs).map Prod.fst).Nodup := by
  have h : renameDots attrs =
      renameOne (renameOne (renameOne attrs "step_id") "return") "depends" := rfl
  rw [h]
  exact renameOne_fst_nodup _ (renameOne_fst_nodup _ (renameOne_fst_nodup _ hnd))

theorem mkColumns_fst {α : Type} (attrs : List (String × α)) :
    (mkColumns attrs).map Prod.fst = attrs.map Prod.fst := by
  simp [mkColumns]

theorem appendCol_spec {α : Type} :
    ∀ {cols : List (String × List α)} (k1 : String) (v1 : α),
    k1 ∈ cols.map Prod.fst →
    ∃ cols2, appendCol cols k1 v1 = some cols2 ∧
      cols2.map Prod.fst = cols.map Prod.fst ∧
      (∀ k, k ≠ k1 → dget cols2 k = dget cols k) ∧
      (∀ l, dget cols k1 = some l → dget cols2 k1 = some (l ++ [v1])) := by
  intro cols
  induction cols with
  | nil => intro k1 v1 h; simp at h
  | cons p rest ih =>
    intro k1 v1 h
    obtain ⟨c, l⟩ := p
    by_cases hc : c = k1
    · subst hc
      refine ⟨(c, l ++ [v1]) :: rest, by simp [appendCol], by simp, ?_, ?_⟩
      · intro k hk
        have hck : ¬ c = k := fun he => hk (he.symm)
        simp [dget, hck]
      · intro l0 hl0
        rw [dget_cons_self] at hl0
        simp only [Option.some.injEq] at hl0
        rw [dget_cons_self, hl0]
    · simp only [List.map_cons, List.mem_cons] at h
      rcases h with h1 | h1
      · exact absurd h1.symm hc
      · obtain ⟨cols2, hac, hkeys, hne, hself⟩ := ih k1 v1 h1
        refine ⟨(c, l) :: cols2, ?_, by simp [hkeys], ?_, ?_⟩
        · simp [appendCol, hc, hac]
        · intro k hk
          by_cases hck : c = k
          · simp [dget, hck]
          · simp only [dget, hck, if_false]
            exact hne k hk
        · intro l0 hl0
          simp only [dget, hc, if_false] at hl0
          simp only [dget, hc, if_false]
          exact hself l0 hl0

theorem appendAttrs_spec {α : Type} :
    ∀ (attrs : List (String × α)) (cols : List (String × List α)),
    (∀ a ∈ attrs.map Prod.fst, a ∈ cols.map Prod.fst) →
    ∃ cols2, appendAttrs cols attrs = some cols2 ∧
      cols2.map Prod.fst = cols.map Prod.fst ∧
      ∀ k l, dget cols k = some l → ∃ l2, dget cols2 k = some l2 ∧
        l2.length = l.length + ((attrs.map Prod.fst).count k) := by
  intro attrs
  induction attrs with
  | nil =>
    intro cols _
    exact ⟨cols, rfl, rfl, fun k l hl => ⟨l, hl, by simp⟩⟩
  | cons a rest ih =>
    intro cols hsub
    obtain ⟨k1, v1⟩ := a
    have hk1 : k1 ∈ cols.map Prod.fst := hsub k1 (by simp)
    obtain ⟨c2, hac, hkeys2, hne2, hself2⟩ := appendCol_spec k1 v1 hk1
    obtain ⟨cols3, hac3, hkeys3, hcount3⟩ := ih c2 (by
      intro a ha
      rw [hkeys2]
      exact hsub a (List.mem_cons_of_mem _ (by simpa using ha)))
    refine ⟨cols3, ?_, by rw [hkeys3, hkeys2], ?_⟩
    · simp [appendAttrs, hac, hac3]
    · intro k l hl
      by_cases hk : k = k1
      · subst hk
        have h2 : dget c2 k = some (l ++ [v1]) := hself2 l hl
        obtain ⟨l2, hl2, hlen2⟩ := hcount3 k (l ++ [v1]) h2
        refine ⟨l2, hl2, ?_⟩
        rw [hlen2]
        simp only [List.length_append, List.length_cons, List.length_nil,
          List.map_cons]
        rw [List.count_cons_self]
        omega
      · have h2 : dget c2 k = some l := by rw [hne2 k hk]; exact hl
        obtain ⟨l2, hl2, hlen2⟩ := hcount3 k l h2
        refine ⟨l2, hl2, ?_⟩
        rw [hlen2]
        simp only [List.map_cons]
        rw [List.count_cons_of_ne hk]

/-- The parallel-column invariant of one table record store: the three
builtin columns and every attribute column hold exactly n entries, and the
attribute column names are distinct (they come from dict keys). -/
def tableWF {α : Type} (tb : Table α) (n : Nat) : Prop :=
  tb.step_id.length = n ∧ tb.ret.length = n ∧ tb.depends.length = n ∧
  (∀ c ∈ tb.attrs, c.2.length = n) ∧ (tb.attrs.map Prod.fst).Nodup

theorem appendRow_wf {α : Type} [DecidableEq α]
    (dataL : List (String × RawRec α)) (idx : Nat) (k : String)
    (vAttrs : List (String × α)) (table : String) (st st2 : Store α)
    (tb : Table α) (n : Nat)
    (h : appendRow dataL idx k vAttrs table st = .ok st2)
    (hget : dget st.data table = some tb)
    (hwf : tableWF tb n)
    (hperm : List.Perm (vAttrs.map Prod.fst) (tb.attrs.map Prod.fst)) :
    st2.data.map Prod.fst = st.data.map Prod.fst ∧
    (∀ k2, k2 ≠ table → dget st2.data k2 = dget st.data k2) ∧
    ∃ tb2, dget st2.data table = some tb2 ∧ tableWF tb2 (n + 1) := by
  obtain ⟨hlen1, hlen2, hlen3, hattrs, hndcols⟩ := hwf
  cases hp1 : (pySplit k '_')[1]? with
  | none => simp [appendRow, hget, hp1] at h
  | some retVal =>
    obtain ⟨cols2, hac, hkeys, hcount⟩ :=
      appendAttrs_spec vAttrs tb.attrs (fun a ha => hperm.subset ha)
    simp only [appendRow, hget, hp1] at h
    split at h
    · simp at h
    · split at h
      · rename_i hnone
        rw [hac] at hnone
        cases hnone
      · rename_i dep hdepok cols hsome
        rw [hac] at hsome
        injection hsome with hcc
        subst hcc
        simp only [Except.ok.injEq] at h
        subst h
        have htmem : table ∈ st.data.map Prod.fst :=
          List.mem_map_of_mem Prod.fst (dget_mem hget)
        refine ⟨?_, ?_, ?_⟩
        · simp only [map_fst_dset, htmem, if_true]
        · intro k2 hk2
          exact dget_dset_ne _ _ hk2
        · refine ⟨_, dget_dset_self _ _ _, ?_⟩
          refine ⟨by simpa using hlen1, by simpa using hlen2,
            by simpa using hlen3, ?_, by rw [hkeys]; exact hndcols⟩
          intro c hc
          have hcnd : (cols2.map Prod.fst).Nodup := by rw [hkeys]; exact hndcols
          have hcget : dget cols2 c.1 = some c.2 := dget_of_mem_nodup hcnd hc
          have hcm : c.1 ∈ tb.attrs.map Prod.fst := by
            rw [← hkeys]
            exact List.mem_map_of_mem Prod.fst hc
          have hold : ∃ l, dget tb.attrs c.1 = some l := by
            cases hdo : dget tb.attrs c.1 with
            | none => exact absurd hcm ((dget_eq_none_iff _ _).mp hdo)
            | some l => exact ⟨l, rfl⟩
          obtain ⟨l, hl⟩ := hold
          obtain ⟨l2, hl2, hlen⟩ := hcount c.1 l hl
          rw [hcget] at hl2
          simp only [Option.some.injEq] at hl2
          have hlold : l.length = n := hattrs (c.1, l) (dget_mem hl)
          have hcnt1 : (vAttrs.map Prod.fst).count c.1 = 1 := by
            rw [hperm.count_eq]
            exact List.count_eq_one_of_mem hndcols hcm
          rw [← hl2] at hlen
          omega

/-- The store invariant after ingesting the records in recs: table names are
distinct, every table satisfies the parallel-column invariant with exactly
one row per ingested record of that table, and every ingested record has its
table in the store. -/
def storeTablesWF {α : Type} (st : Store α)
    (recs : List (String × RawRec α)) : Prop :=
  (st.data.map Prod.fst).Nodup ∧
  (∀ p ∈ st.data, tableWF p.2
    ((recs.filter (fun q => q.2.exec = p.1)).length)) ∧
  (∀ q ∈ recs, q.2.exec ∈ st.data.map Prod.fst)

theorem ingestOne_wf {α : Type} [DecidableEq α]
    (dataL : List (String × RawRec α)) (idx : Nat) (k : String)
    (v : RawRec α) (st st2 : Store α) (recs : List (String × RawRec α))
    (hv : (v.attrs.map Prod.fst).Nodup)
    (hinv : storeTablesWF st recs)
    (h : ingestOne dataL idx k v st = .ok st2) :
    storeTablesWF st2 (recs ++ [(k, v)]) := by
  obtain ⟨hnd, htw, hexec⟩ := hinv
  have hvr : ((renameDots v.attrs).map Prod.fst).Nodup := renameDots_fst_nodup hv
  cases hdg : dget st.data v.exec with
  | none =>
    simp only [ingestOne, hdg] at h
    have hget0 : dget (st.data ++
        [(v.exec,
          ({ step_id := [], ret := [], depends := [],
             attrs := mkColumns (renameDots v.attrs) } : Table α))]) v.exec =
        some ({ step_id := [], ret := [], depends := [],
                attrs := mkColumns (renameDots v.attrs) } : Table α) := by
      rw [dget_append, hdg, dget_cons_self]
    have hwf0 : tableWF ({ step_id := [], ret := [], depends := [],
                           attrs := mkColumns (renameDots v.attrs) } :
        Table α) 0 := by
      refine ⟨rfl, rfl, rfl, ?_, ?_⟩
      · intro c hc
        simp only [mkColumns, List.mem_map] at hc
        obtain ⟨a, _, ha⟩ := hc
        rw [← ha]
        rfl
      · rw [mkColumns_fst]
        exact hvr
    have hperm0 : List.Perm ((renameDots v.attrs).map Prod.fst)
        ((mkColumns (renameDots v.attrs)).map Prod.fst) := by
      rw [mkColumns_fst]
    obtain ⟨hkeq, hne, tb2, hget2, hwf2⟩ := appendRow_wf dataL idx k
      (renameDots v.attrs) v.exec _ st2 _ 0 h hget0 hwf0 hperm0
    have hstkeys : st2.data.map Prod.fst =
        st.data.map Prod.fst ++ [v.exec] := by
      rw [hkeq]
      simp
    have hnd2 : (st2.data.map Prod.fst).Nodup := by
      rw [hstkeys, List.nodup_append]
      refine ⟨hnd, by simp, ?_⟩
      intro a ha
      simp only [List.mem_singleton]
      intro he; subst he
      exact ((dget_eq_none_iff _ _).mp hdg) ha
    have hrecs0 : recs.filter (fun q => q.2.exec = v.exec) = [] := by
      rw [List.filter_eq_nil_iff]
      intro q hq
      simp only [decide_eq_true_eq]
      intro he
      have hm := hexec q hq
      rw [he] at hm
      exact ((dget_eq_none_iff _ _).mp hdg) hm
    refine ⟨hnd2, ?_, ?_⟩
    · intro p hp
      have hget_p : dget st2.data p.1 = some p.2 := dget_of_mem_nodup hnd2 hp
      by_cases hpe : p.1 = v.exec
      · rw [hpe, hget2] at hget_p
        injection hget_p with htb2
        rw [List.filter_append, hpe, hrecs0]
        have hf1 : [(k, v)].filter (fun q => q.2.exec = v.exec) = [(k, v)] := by
          simp
        rw [hf1]
        simp only [List.nil_append, List.length_cons, List.length_nil]
        exact htb2 ▸ hwf2
      · rw [hne p.1 hpe, dget_append] at hget_p
        cases hdp : dget st.data p.1 with
        | none =>
          rw [hdp] at hget_p
          have hvp : ¬ v.exec = p.1 := fun he => hpe he.symm
          simp [dget, hvp] at hget_p
        | some tbold =>
          rw [hdp] at hget_p
          simp only [Option.some.injEq] at hget_p
          have hold := htw (p.1, tbold) (dget_mem hdp)
          rw [List.filter_append]
          have hf1 : [(k, v)].filter (fun q => q.2.exec = p.1) = [] := by
            simp only [List.filter_cons, List.filter_nil, decide_eq_true_eq]
            rw [if_neg (fun he => hpe he.symm)]
          rw [hf1, List.append_nil]
          exact hget_p ▸ hold
    · intro q hq
      rcases List.mem_append.mp hq with h1 | h1
      · rw [hstkeys]
        exact List.mem_append_left _ (hexec q h1)
      · simp only [List.mem_singleton] at h1
        subst h1
        rw [hstkeys]
        exact List.mem_append_right _ (by simp)
  | some tb =>
    simp only [ingestOne, hdg] at h
    by_cases hks : sortKeys ((renameDots v.attrs).map Prod.fst) =
        sortKeys (tb.attrs.map Prod.fst)
    · rw [if_pos hks] at h
      have hperm1 : List.Perm ((renameDots v.attrs).map Prod.fst)
          (tb.attrs.map Prod.fst) := by
        have hmid : List.Perm
            (sortKeys ((renameDots v.attrs).map Prod.fst))
            (tb.attrs.map Prod.fst) := by
          rw [hks]
          exact List.perm_insertionSort _ _
        exact (List.perm_insertionSort _ _).symm.trans hmid
      obtain ⟨hkeq, hne, tb2, hget2, hwf2⟩ := appendRow_wf dataL idx k
        (renameDots v.attrs) v.exec _ st2 tb
        ((recs.filter (fun q => q.2.exec = v.exec)).length)
        h hdg (htw (v.exec, tb) (dget_mem hdg)) hperm1
      have hstkeys : st2.data.map Prod.fst = st.data.map Prod.fst := hkeq
      have hnd2 : (st2.data.map Prod.fst).Nodup := by
        rw [hstkeys]; exact hnd
      refine ⟨hnd2, ?_, ?_⟩
      · intro p hp
        have hget_p : dget st2.data p.1 = some p.2 := dget_of_mem_nodup hnd2 hp
        by_cases hpe : p.1 = v.exec
        · rw [hpe, hget2] at hget_p
          injection hget_p with htb2
          rw [List.filter_append, hpe]
          have hf1 : [(k, v)].filter (fun q => q.2.exec = v.exec) = [(k, v)] := by
            simp
          rw [hf1]
          simp only [List.length_append, List.length_cons, List.length_nil]
          exact htb2 ▸ hwf2
        · have hdp : dget st.data p.1 = some p.2 := by
            rw [← hne p.1 hpe]
            exact hget_p
          have hold := htw (p.1, p.2) (dget_mem hdp)
          rw [List.filter_append]
          have hf1 : [(k, v)].filter (fun q => q.2.exec = p.1) = [] := by
            simp only [List.filter_cons, List.filter_nil, decide_eq_true_eq]
            rw [if_neg (fun he => hpe he.symm)]
          rw [hf1, List.append_nil]
          exact hold
      · intro q hq
        rcases List.mem_append.mp hq with h1 | h1
        · rw [hstkeys]
          exact hexec q h1
        · simp only [List.mem_singleton] at h1
          subst h1
          rw [hstkeys]
          exact List.mem_map_of_mem Prod.fst (dget_mem hdg)
    · rw [if_neg hks] at h
      split at h <;> simp at h

theorem ingestLoop_wf {α : Type} [DecidableEq α]
    (dataL : List (String × RawRec α)) :
    ∀ (rest : List (String × RawRec α)) (idx : Nat) (st st2 : Store α)
      (recs : List (String × RawRec α)),
    (∀ q ∈ rest, (q.2.attrs.map Prod.fst).Nodup) →
    storeTablesWF st recs →
    ingestLoop dataL idx rest st = .ok st2 →
    storeTablesWF st2 (recs ++ rest) := by
  intro rest
  induction rest with
  | nil =>
    intro idx st st2 recs _ hinv h
    simp only [ingestLoop, Except.ok.injEq] at h
    subst h
    simpa using hinv
  | cons p rest2 ih =>
    intro idx st st2 recs hnd hinv h
    obtain ⟨k, v⟩ := p
    cases hone : ingestOne dataL idx k v st with
    | error e => simp [ingestLoop, hone] at h
    | ok stm =>
      simp only [ingestLoop, hone] at h
      have hmid := ingestOne_wf dataL idx k v st stm recs
        (hnd (k, v) (List.mem_cons_self _ _)) hinv hone
      have := ih (idx + 1) stm st2 (recs ++ [(k, v)])
        (fun q hq => hnd q (List.mem_cons_of_mem _ hq)) hmid h
      simpa [List.append_assoc] using this

theorem dset_val_mem [DecidableEq κ] :
    ∀ {d : List (κ × β)} {k : κ} {v : β} {q : κ × β},
    q ∈ dset d k v → q ∈ d ∨ q.2 = v := by
  intro d
  induction d with
  | nil =>
    intro k v q hq
    simp only [dset, List.mem_singleton] at hq
    subst hq
    exact Or.inr rfl
  | cons p t ih =>
    intro k v q hq
    obtain ⟨k0, v0⟩ := p
    by_cases h : k0 = k
    · simp only [dset, h, if_true, List.mem_cons] at hq
      rcases hq with h1 | h1
      · subst h1; exact Or.inr rfl
      · exact Or.inl (List.mem_cons_of_mem _ h1)
    · simp only [dset, h, if_false, List.mem_cons] at hq
      rcases hq with h1 | h1
      · subst h1; exact Or.inl (List.mem_cons_self _ _)
      · rcases ih h1 with h2 | h2
        · exact Or.inl (List.mem_cons_of_mem _ h2)
        · exact Or.inr h2

theorem odUpdate_val [DecidableEq κ] (P : β → Prop) :
    ∀ (s d : List (κ × β)), (∀ q ∈ d, P q.2) → (∀ q ∈ s, P q.2) →
    ∀ q ∈ odUpdate d s, P q.2 := by
  intro s
  induction s with
  | nil => intro d hd _ q hq; exact hd q hq
  | cons p t ih =>
    intro d hd hs q hq
    obtain ⟨k0, v0⟩ := p
    have hstep : odUpdate d ((k0, v0) :: t) = odUpdate (dset d k0 v0) t := by
      simp [odUpdate]
    rw [hstep] at hq
    refine ih (dset d k0 v0) ?_ (fun r hr => hs r (List.mem_cons_of_mem _ hr)) q hq
    intro r hr
    rcases dset_val_mem hr with h1 | h1
    · exact hd r h1
    · rw [h1]
      exact hs (k0, v0) (List.mem_cons_self _ _)

/-- Claim C10: after every successful ingestion each table keeps the
parallel-column invariant — all of its columns (step_id, return, depends and
every attribute column) have the same length, equal to the number of
deduplicated records ingested for that table — and each record insertion
into a well-formed store extends the record table by exactly one entry in
every column. -/
theorem c10_parallel_columns {α : Type} [DecidableEq α] :
    (∀ (src : List (String × RawRec α)) (st : Store α),
       (∀ q ∈ src, (q.2.attrs.map Prod.fst).Nodup) →
       load_parameters src = .ok st →
       ∀ p ∈ st.data, tableWF p.2
         (((dedup [] (odUpdate [] src)).filter
            (fun q => q.2.exec = p.1)).length)) ∧
    (∀ (dataL : List (String × RawRec α)) (idx : Nat) (k : String)
       (v : RawRec α) (st st2 : Store α) (recs : List (String × RawRec α)),
       (v.attrs.map Prod.fst).Nodup → storeTablesWF st recs →
       ingestOne dataL idx k v st = .ok st2 →
       storeTablesWF st2 (recs ++ [(k, v)])) := by
  constructor
  · intro src st hsrc h
    simp only [load_parameters] at h
    have hdd : ∀ q ∈ dedup [] (odUpdate [] src),
        (q.2.attrs.map Prod.fst).Nodup := by
      intro q hq
      have hq2 : q ∈ odUpdate [] src :=
        (dedup_sublist [] (odUpdate [] src)).subset hq
      exact odUpdate_val (fun r => (r.attrs.map Prod.fst).Nodup) src []
        (by simp) hsrc q hq2
    have hinit : storeTablesWF ({ data := [], groups := [], last_block := [] } :
        Store α) [] := ⟨by simp, by simp, by simp⟩
    have := ingestLoop_wf (dedup [] (odUpdate [] src))
      (dedup [] (odUpdate [] src)) 0 _ st [] hdd hinit h
    simpa using this.2.1
  · intro dataL idx k v st st2 recs hv hinv h
    exact ingestOne_wf dataL idx k v st st2 recs hv hinv h

/-- The concrete one-record source of the C10 witness. -/
def wsrcP : List (String × RawRec Nat) := [("1_a", wrecP)]

/-- The store built by ingesting the C10 witness source. -/
def wstP : Store Nat :=
  { data := [("A", { step_id := [1], ret := ["a"], depends := [none],
                     attrs := [("p", [0])] })],
    groups := [("A", ["A"])], last_block := ["A"] }

/-- Witness for claim C10 at the one-record source: the single table of the
resulting store satisfies the parallel-column invariant with one row. -/
theorem c10_parallel_columns_witness :
    tableWF ({ step_id := [1], ret := ["a"], depends := [none],
               attrs := [("p", [0])] } : Table Nat)
      (((dedup [] (odUpdate [] wsrcP)).filter
         (fun q => q.2.exec = "A")).length) :=
  (c10_parallel_columns.1 wsrcP wstP (by decide) (by decide))
    ("A", { step_id := [1], ret := ["a"], depends := [none],
            attrs := [("p", [0])] }) (by decide)

end DscDB
